import Mathlib

/-!
# Quantum-Simulator: a shallow embedding of `quantum.c`

The state-vector simulator of `src/quantum.c` is translated function by function.

* A C `int` that holds an index, a qubit number or a mask is a `Nat`; the only place where
  the width of `int` matters is the complement `~mask`, which is taken on 32 bits.
* `double` is a type `R`, `double complex` is a type `C`, and the functions taken from
  `<math.h>` and `<complex.h>` are the fields of a `CMath R C`.  The definitions are
  computable for every such choice; the theorems read them over `ℝ` and `ℂ` with the exact
  functions (`CMath.IsExact`).
* The array `amplitudes` is a function from indices to amplitudes, written with `write`;
  a `for` loop is a left fold over the list of its indices.
* `rand() / RAND_MAX` is an explicit argument of `measure_qubit`.
-/

namespace QSim

/-! ## Arithmetic interface -/

/-- Functions of `<math.h>` and `<complex.h>` that the simulator calls, over a type `R` for
`double` and a type `C` for `double complex`. `ofReal` is the implicit conversion of a
`double` to a `double complex`, `toInt` is the cast `(int)x`. -/
structure CMath (R C : Type) where
  sqrt : R → R
  cos : R → R
  sin : R → R
  pow : R → R → R
  cabs : C → R
  ofReal : R → C
  I : C
  toInt : R → Int

/-- The interface read over exact real and complex numbers. -/
def CMath.IsExact (M : CMath ℝ ℂ) : Prop :=
  M.sqrt = Real.sqrt ∧ M.cos = Real.cos ∧ M.sin = Real.sin ∧
  M.pow = (fun x y => Real.rpow x y) ∧ M.cabs = (fun z => Complex.abs z) ∧
  M.ofReal = (fun x : ℝ => (x : ℂ)) ∧ M.I = Complex.I ∧
  M.toInt = (fun x => if 0 ≤ x then Int.floor x else Int.ceil x)

/-! ## Arrays, loops and machine integers -/

/-- Array store `a[i] = v`. -/
def write {C : Type} (a : Nat → C) (i : Nat) (v : C) : Nat → C :=
  fun k => if k = i then v else a k

/-- Loop `for (int i = 0; i < n; i++)`: the body is folded over `0, 1, ..., n-1`. -/
def forRange {σ : Type} (n : Nat) (body : σ → Nat → σ) (init : σ) : σ :=
  (List.range n).foldl body init

/-- Loop `for (int i = lo; i < hi; i++)`. -/
def forFromTo {σ : Type} (lo hi : Nat) (body : σ → Nat → σ) (init : σ) : σ :=
  (List.range' lo (hi - lo)).foldl body init

/-- Loop `for (int i = 0; i < n; i += 2)`. -/
def forRangeStep2 {σ : Type} (n : Nat) (body : σ → Nat → σ) (init : σ) : σ :=
  (List.range' 0 ((n + 1) / 2) 2).foldl body init

/-- Complement `~x` of a non-negative 32-bit `int`, as a bit pattern. -/
def bnot32 (x : Nat) : Nat := 2 ^ 32 - 1 - x

/-! ## Data model -/

/-- Value of `MAX_QUBITS` in `quantum.h`. -/
def MAX_QUBITS : Nat := 16

/-- The `QuantumState` struct of `quantum.h`. -/
structure QuantumState (C : Type) where
  num_qubits : Nat
  state_size : Nat
  amplitudes : Nat → C

/-- The decimal literal of `#define PI`. -/
def PI {R : Type} [Field R] : R := 314159265358979323846 / 100000000000000000000

section Defs

variable {R C : Type}

/-- Translation of `create_quantum_state`: `none` is the `NULL` result; the array is
zero-filled by `calloc` and entry 0 is set to `1.0 + 0.0*I`. -/
def create_quantum_state [Zero C] [One C] (num_qubits : Nat) : Option (QuantumState C) :=
  if num_qubits > MAX_QUBITS then none
  else
    some { num_qubits := num_qubits
           state_size := 1 <<< num_qubits
           amplitudes := write (fun _ => 0) 0 1 }

/-- Translation of `normalize_state`. -/
def normalize_state [Field R] [Field C] (M : CMath R C) (state : QuantumState C) :
    QuantumState C :=
  let norm : R := forRange state.state_size
    (fun norm i => norm + M.cabs (state.amplitudes i) * M.cabs (state.amplitudes i)) 0
  let norm := M.sqrt norm
  { state with
    amplitudes := forRange state.state_size
      (fun a i => write a i (a i / M.ofReal norm)) state.amplitudes }

/-- Translation of `apply_hadamard`: the new vector starts zero-filled and is accumulated. -/
def apply_hadamard [Field R] [Field C] (M : CMath R C) (state : QuantumState C)
    (target_qubit : Nat) : QuantumState C :=
  let mask := 1 <<< target_qubit
  let scale : R := 1 / M.sqrt 2
  let new_amplitudes := forRange state.state_size
    (fun new_amplitudes i =>
      let i0 := i &&& bnot32 mask
      let i1 := i ||| mask
      if i &&& mask = 0 then
        let n1 := write new_amplitudes i0 (new_amplitudes i0 + M.ofReal scale * state.amplitudes i)
        write n1 i1 (n1 i1 + M.ofReal scale * state.amplitudes i)
      else
        let n1 := write new_amplitudes i0 (new_amplitudes i0 + M.ofReal scale * state.amplitudes i)
        write n1 i1 (n1 i1 - M.ofReal scale * state.amplitudes i))
    (fun _ => 0)
  { state with amplitudes := new_amplitudes }

/-- Translation of `apply_pauli_x`; the loop advances by 2. -/
def apply_pauli_x (state : QuantumState C) (target_qubit : Nat) : QuantumState C :=
  let mask := 1 <<< target_qubit
  { state with
    amplitudes := forRangeStep2 state.state_size
      (fun a i =>
        let temp := a i
        let a1 := write a i (a (i ^^^ mask))
        write a1 (i ^^^ mask) temp)
      state.amplitudes }

/-- Translation of `apply_pauli_z`. -/
def apply_pauli_z [Field C] (state : QuantumState C) (target_qubit : Nat) : QuantumState C :=
  let mask := 1 <<< target_qubit
  { state with
    amplitudes := forRange state.state_size
      (fun a i => if i &&& mask ≠ 0 then write a i (a i * -1) else a)
      state.amplitudes }

/-- Translation of `apply_pauli_y`: the second store reads the entry the first store wrote. -/
def apply_pauli_y [Field C] (M : CMath R C) (state : QuantumState C) (target_qubit : Nat) :
    QuantumState C :=
  let mask := 1 <<< target_qubit
  let i_unit := M.I
  { state with
    amplitudes := forRange state.state_size
      (fun a i =>
        if i &&& mask ≠ 0 then
          let a1 := write a (i ^^^ mask) (i_unit * a i)
          write a1 i (-i_unit * a1 (i ^^^ mask))
        else a)
      state.amplitudes }

/-- Translation of `apply_phase`. -/
def apply_phase [Field C] (M : CMath R C) (state : QuantumState C) (target_qubit : Nat)
    (angle : R) : QuantumState C :=
  let mask := 1 <<< target_qubit
  let phase := M.ofReal (M.cos angle) + M.I * M.ofReal (M.sin angle)
  { state with
    amplitudes := forRange state.state_size
      (fun a i => if i &&& mask ≠ 0 then write a i (a i * phase) else a)
      state.amplitudes }

/-- Translation of `apply_cnot`. -/
def apply_cnot (state : QuantumState C) (control_qubit target_qubit : Nat) : QuantumState C :=
  let control_mask := 1 <<< control_qubit
  let target_mask := 1 <<< target_qubit
  { state with
    amplitudes := forRange state.state_size
      (fun a i =>
        if i &&& control_mask ≠ 0 then
          let j := i ^^^ target_mask
          let temp := a i
          let a1 := write a i (a j)
          write a1 j temp
        else a)
      state.amplitudes }

/-- Translation of `apply_swap`. -/
def apply_swap (state : QuantumState C) (qubit1 qubit2 : Nat) : QuantumState C :=
  let mask1 := 1 <<< qubit1
  let mask2 := 1 <<< qubit2
  { state with
    amplitudes := forRange state.state_size
      (fun a i =>
        let bit1 : Nat := if i &&& mask1 ≠ 0 then 1 else 0
        let bit2 : Nat := if i &&& mask2 ≠ 0 then 1 else 0
        if bit1 ≠ bit2 then
          let j := i ^^^ mask1 ^^^ mask2
          let temp := a i
          let a1 := write a i (a j)
          write a1 j temp
        else a)
      state.amplitudes }

/-- Translation of `apply_toffoli`. -/
def apply_toffoli (state : QuantumState C) (control1 control2 target : Nat) : QuantumState C :=
  let c1_mask := 1 <<< control1
  let c2_mask := 1 <<< control2
  let target_mask := 1 <<< target
  { state with
    amplitudes := forRange state.state_size
      (fun a i =>
        if i &&& c1_mask ≠ 0 ∧ i &&& c2_mask ≠ 0 then
          let j := i ^^^ target_mask
          let temp := a i
          let a1 := write a i (a j)
          write a1 j temp
        else a)
      state.amplitudes }

/-- Translation of `measure_qubit`; `rand_val` stands for `(double)rand() / RAND_MAX`.
Returns the measured bit and the collapsed, renormalised state. -/
def measure_qubit [Field R] [LinearOrder R] [Field C] (M : CMath R C) (state : QuantumState C)
    (qubit : Nat) (rand_val : R) : Nat × QuantumState C :=
  let mask := 1 <<< qubit
  let prob_0 : R := forRange state.state_size
    (fun prob_0 i =>
      if i &&& mask = 0 then
        prob_0 + M.cabs (state.amplitudes i) * M.cabs (state.amplitudes i)
      else prob_0) 0
  let result : Nat := if rand_val > prob_0 then 1 else 0
  let collapsed := forRange state.state_size
    (fun a i => if i &&& mask ≠ result <<< qubit then write a i 0 else a)
    state.amplitudes
  (result, normalize_state M { state with amplitudes := collapsed })

/-- Translation of `grover_oracle`. -/
def grover_oracle [Field C] (state : QuantumState C) (marked_state : Nat) : QuantumState C :=
  { state with
    amplitudes := write state.amplitudes marked_state (state.amplitudes marked_state * -1) }

/-- Translation of `grover_diffusion`. -/
def grover_diffusion [Field R] [Field C] (M : CMath R C) (state : QuantumState C) :
    QuantumState C :=
  let s1 := forRange state.num_qubits (fun s i => apply_hadamard M s i) state
  let s2 := { s1 with amplitudes := write s1.amplitudes 0 (s1.amplitudes 0 * -1) }
  forRange s2.num_qubits (fun s i => apply_hadamard M s i) s2

/-- Translation of `grover_search`. -/
def grover_search [Field R] [Field C] (M : CMath R C) (state : QuantumState C)
    (marked_state : Nat) : QuantumState C :=
  let s1 := forRange state.num_qubits (fun s i => apply_hadamard M s i) state
  let iterations : Int := M.toInt (PI / 4 * M.sqrt (s1.state_size : R))
  forRange iterations.toNat
    (fun s _ => grover_diffusion M (grover_oracle s marked_state)) s1

/-- Translation of `quantum_fourier_transform`. -/
def quantum_fourier_transform [Field R] [Field C] (M : CMath R C) (state : QuantumState C) :
    QuantumState C :=
  let s1 := forRange state.num_qubits
    (fun s i =>
      let sh := apply_hadamard M s i
      forFromTo (i + 1) sh.num_qubits
        (fun s j =>
          let angle : R := PI / M.pow 2 ((j - i : Nat) : R)
          apply_phase M s j angle)
        sh)
    state
  forRange (s1.num_qubits / 2) (fun s i => apply_swap s i (s.num_qubits - 1 - i)) s1

/-- Translation of `deutsch_jozsa`: the oracle loop calls `apply_pauli_z` with the loop
counter `0, ..., state_size / 2 - 1` as its qubit argument. -/
def deutsch_jozsa [Field R] [Field C] (M : CMath R C) (state : QuantumState C)
    (is_constant : Bool) : QuantumState C :=
  let s1 := forRange state.num_qubits (fun s i => apply_hadamard M s i) state
  let s2 :=
    if !is_constant then
      forRange (s1.state_size / 2) (fun s i => apply_pauli_z s i) s1
    else s1
  forRange s2.num_qubits (fun s i => apply_hadamard M s i) s2

/-- Translation of `apply_controlled_phase`. -/
def apply_controlled_phase [Field C] (M : CMath R C) (state : QuantumState C)
    (control_qubit target_qubit : Nat) (angle : R) : QuantumState C :=
  let control_mask := 1 <<< control_qubit
  let target_mask := 1 <<< target_qubit
  let phase := M.ofReal (M.cos angle) + M.I * M.ofReal (M.sin angle)
  { state with
    amplitudes := forRange state.state_size
      (fun a i =>
        if i &&& control_mask ≠ 0 ∧ i &&& target_mask ≠ 0 then write a i (a i * phase) else a)
      state.amplitudes }

/-- Translation of `apply_rotation_x`: the loop visits every index, not one index per pair. -/
def apply_rotation_x [Field R] [Field C] (M : CMath R C) (state : QuantumState C)
    (target_qubit : Nat) (angle : R) : QuantumState C :=
  let mask := 1 <<< target_qubit
  let cos_half := M.cos (angle / 2)
  let sin_half := M.sin (angle / 2)
  { state with
    amplitudes := forRange state.state_size
      (fun a i =>
        let i0 := i &&& bnot32 mask
        let i1 := i ||| mask
        let temp := a i0
        let a1 := write a i0 (M.ofReal cos_half * temp - M.I * M.ofReal sin_half * a i1)
        write a1 i1 (-M.I * M.ofReal sin_half * temp + M.ofReal cos_half * a1 i1))
      state.amplitudes }

/-- Translation of `apply_rotation_y`. -/
def apply_rotation_y [Field R] [Field C] (M : CMath R C) (state : QuantumState C)
    (target_qubit : Nat) (angle : R) : QuantumState C :=
  let mask := 1 <<< target_qubit
  let cos_half := M.cos (angle / 2)
  let sin_half := M.sin (angle / 2)
  { state with
    amplitudes := forRange state.state_size
      (fun a i =>
        let i0 := i &&& bnot32 mask
        let i1 := i ||| mask
        let temp := a i0
        let a1 := write a i0 (M.ofReal cos_half * temp - M.ofReal sin_half * a i1)
        write a1 i1 (M.ofReal sin_half * temp + M.ofReal cos_half * a1 i1))
      state.amplitudes }

/-- Translation of `apply_rotation_z`. -/
def apply_rotation_z [Field C] (M : CMath R C) (state : QuantumState C) (target_qubit : Nat)
    (angle : R) : QuantumState C :=
  apply_phase M state target_qubit angle

/-- Translation of `apply_error_correction_encoding`. -/
def apply_error_correction_encoding (state : QuantumState C) (logical_qubit : Nat) :
    QuantumState C :=
  let base_qubit := logical_qubit * 3
  let s1 := apply_cnot state base_qubit (base_qubit + 1)
  apply_cnot s1 base_qubit (base_qubit + 2)

/-- Translation of `apply_error_correction_syndrome`. The four calls of `measure_qubit` are
taken in the order written and `u1, ..., u4` are their draws. Returns the pair
`(syndrome[0], syndrome[1])` and the state. -/
def apply_error_correction_syndrome [Field R] [LinearOrder R] [Field C] (M : CMath R C)
    (state : QuantumState C) (logical_qubit : Nat) (u1 u2 u3 u4 : R) :
    (Nat × Nat) × QuantumState C :=
  let base_qubit := logical_qubit * 3
  let m1 := measure_qubit M state base_qubit u1
  let m2 := measure_qubit M m1.2 (base_qubit + 1) u2
  let m3 := measure_qubit M m2.2 base_qubit u3
  let m4 := measure_qubit M m3.2 (base_qubit + 2) u4
  ((m1.1 ^^^ m2.1, m3.1 ^^^ m4.1), m4.2)

/-- Translation of `apply_error_correction_recovery`; `syndrome` is the pair
`(syndrome[0], syndrome[1])`. -/
def apply_error_correction_recovery (state : QuantumState C) (logical_qubit : Nat)
    (syndrome : Nat × Nat) : QuantumState C :=
  let base_qubit := logical_qubit * 3
  if syndrome.1 ≠ 0 ∧ syndrome.2 = 0 then apply_pauli_x state (base_qubit + 1)
  else if syndrome.1 = 0 ∧ syndrome.2 ≠ 0 then apply_pauli_x state (base_qubit + 2)
  else if syndrome.1 ≠ 0 ∧ syndrome.2 ≠ 0 then apply_pauli_x state base_qubit
  else state

/-- Translation of `quantum_random_number`; `draws i` is the draw of the measurement made in
iteration `i`. Returns `*result` and the state. -/
def quantum_random_number [Field R] [LinearOrder R] [Field C] (M : CMath R C)
    (state : QuantumState C) (num_bits : Nat) (draws : Nat → R) : Nat × QuantumState C :=
  forRange num_bits
    (fun (acc : Nat × QuantumState C) i =>
      let s1 := apply_hadamard M acc.2 i
      let m := measure_qubit M s1 i (draws i)
      (acc.1 ||| (m.1 <<< i), m.2))
    (0, state)

end Defs

/-! ## Auxiliary definitions used by the statements and proofs -/

/-- What `create_quantum_state` establishes and every gate keeps. -/
def QuantumState.WF {C : Type} (st : QuantumState C) : Prop :=
  st.num_qubits ≤ MAX_QUBITS ∧ st.state_size = 1 <<< st.num_qubits

/-- Closed form of the accumulator of `apply_hadamard` after the first `m` indices. -/
def hadamardPartial {C : Type} [Field C] (s : C) (a : Nat → C) (t m k : Nat) : C :=
  if k.testBit t then
    (if k ^^^ 2 ^ t < m then s * a (k ^^^ 2 ^ t) else 0) - (if k < m then s * a k else 0)
  else
    (if k < m then s * a k else 0) + (if k ^^^ 2 ^ t < m then s * a (k ^^^ 2 ^ t) else 0)


/-- Invariant of the first loop of `quantum_fourier_transform` on the zero state. -/
def QftInv {C : Type} [Field C] (s : C) (n i : Nat) (st : QuantumState C) : Prop :=
  st.num_qubits = n ∧ st.state_size = 1 <<< n ∧
    ∀ k, k < 2 ^ n → st.amplitudes k = if k < 2 ^ i then s ^ i else 0

/-- Every amplitude below `2 ^ n` equals `c`. -/
def ConstInv {C : Type} (c : C) (n : Nat) (st : QuantumState C) : Prop :=
  st.num_qubits = n ∧ st.state_size = 1 <<< n ∧ ∀ k, k < 2 ^ n → st.amplitudes k = c

/-- The Hadamard gate on qubit `t` as a map of amplitude vectors. -/
def hadamardVec {C : Type} [Field C] (s : C) (t : Nat) (a : Nat → C) : Nat → C :=
  fun k =>
    if k.testBit t then s * a (k ^^^ 2 ^ t) - s * a k
    else s * a k + s * a (k ^^^ 2 ^ t)

/-- Hadamard on qubits `0, ..., n-1` in turn, as a map of amplitude vectors. -/
def hadamardAllVec {C : Type} [Field C] (s : C) (n : Nat) (a : Nat → C) : Nat → C :=
  forRange n (fun v t => hadamardVec s t v) a

/-- Two vectors agree on the indices below `N`. -/
def AgreeBelow {C : Type} (N : Nat) (a b : Nat → C) : Prop := ∀ k, k < N → a k = b k

/-- A three-qubit state whose amplitude is `x` at index `m` and `y` at the other indices. -/
def GroverInv {C : Type} (m : Nat) (x y : C) (st : QuantumState C) : Prop :=
  st.num_qubits = 3 ∧ st.state_size = 1 <<< 3 ∧
    ∀ k, k < 8 → st.amplitudes k = if k = m then x else y

/-- A state of `n` qubits whose amplitude is 1 at index `k` and 0 at the other indices. -/
def BasisInv {C : Type} [Zero C] [One C] (n k : Nat) (st : QuantumState C) : Prop :=
  st.num_qubits = n ∧ st.state_size = 1 <<< n ∧
    ∀ i, i < 2 ^ n → st.amplitudes i = if i = k then 1 else 0

/-- State after the first `m` calls of `apply_pauli_z` in the oracle loop of `deutsch_jozsa`:
every amplitude below `2 ^ n` is `c` times the product of the signs of the bits `0, ..., m-1`
of its index. -/
def OracleInv {C : Type} [Field C] (c : C) (n m : Nat) (st : QuantumState C) : Prop :=
  st.num_qubits = n ∧ st.state_size = 1 <<< n ∧
    ∀ k, k < 2 ^ n →
      st.amplitudes k = c * ∏ i in Finset.range m, (if k.testBit i then (-1 : C) else 1)

/-! ## Loops, stores and bit masks -/

theorem forRange_succ {σ : Type} (n : Nat) (body : σ → Nat → σ) (s : σ) :
    forRange (n + 1) body s = body (forRange n body s) n := by
  simp [forRange, List.range_succ, List.foldl_append]

theorem forRange_zero {σ : Type} (body : σ → Nat → σ) (s : σ) :
    forRange 0 body s = s := by
  simp [forRange]

theorem write_apply {C : Type} (a : Nat → C) (i k : Nat) (v : C) :
    write a i v k = if k = i then v else a k := rfl

/-- The partner of index `i` for qubit `t`: bit `t` flipped. -/
theorem flip_flip (t i : Nat) : (i ^^^ 2 ^ t) ^^^ 2 ^ t = i := by
  rw [Nat.xor_assoc, Nat.xor_self, Nat.xor_zero]

theorem testBit_flip (t i : Nat) : (i ^^^ 2 ^ t).testBit t = !i.testBit t := by
  rw [Nat.testBit_xor, Nat.testBit_two_pow_self]; cases i.testBit t <;> rfl

theorem testBit_flip_ne (t c i : Nat) (h : t ≠ c) : (i ^^^ 2 ^ t).testBit c = i.testBit c := by
  rw [Nat.testBit_xor, Nat.testBit_two_pow]; simp [h]

theorem flip_ne (t i : Nat) : i ^^^ 2 ^ t ≠ i := by
  intro h
  have := testBit_flip t i
  rw [h] at this
  cases hb : i.testBit t <;> simp [hb] at this

theorem flip_lt (n t i : Nat) (ht : t < n) (hi : i < 2 ^ n) : i ^^^ 2 ^ t < 2 ^ n :=
  Nat.xor_lt_two_pow hi (Nat.pow_lt_pow_right (by decide) ht)

theorem and_mask_eq_zero (t i : Nat) : i &&& 2 ^ t = 0 ↔ i.testBit t = false := by
  constructor
  · intro h
    have := congrArg (fun x => x.testBit t) h
    simpa [Nat.testBit_and, Nat.testBit_two_pow_self] using this
  · intro h
    apply Nat.eq_of_testBit_eq
    intro j
    rw [Nat.testBit_and, Nat.testBit_two_pow, Nat.zero_testBit]
    by_cases hj : t = j
    · subst hj; simp [h]
    · simp [hj]

theorem or_mask (t i : Nat) : i ||| 2 ^ t = if i.testBit t then i else i ^^^ 2 ^ t := by
  apply Nat.eq_of_testBit_eq
  intro j
  split
  · rename_i h
    rw [Nat.testBit_or, Nat.testBit_two_pow]
    by_cases hj : t = j
    · subst hj; simp [h]
    · simp [hj]
  · rename_i h
    rw [Nat.testBit_or, Nat.testBit_xor, Nat.testBit_two_pow]
    by_cases hj : t = j
    · subst hj; simp [h]
    · simp [hj]

theorem and_bnot32_mask (t i : Nat) (ht : t < 32) (hi : i < 2 ^ 32) :
    i &&& bnot32 (2 ^ t) = if i.testBit t then i ^^^ 2 ^ t else i := by
  have hm : (2:Nat) ^ t < 2 ^ 32 := Nat.pow_lt_pow_right (by decide) ht
  have hb : bnot32 (2 ^ t) = 2 ^ 32 - (2 ^ t + 1) := by unfold bnot32; omega
  apply Nat.eq_of_testBit_eq
  intro j
  rw [Nat.testBit_and, hb, Nat.testBit_two_pow_sub_succ hm, Nat.testBit_two_pow]
  have hj32 : ¬ j < 32 → i.testBit j = false := fun h =>
    Nat.testBit_eq_false_of_lt (lt_of_lt_of_le hi (Nat.pow_le_pow_right (by decide) (by omega)))
  split
  · rename_i h
    rw [Nat.testBit_xor, Nat.testBit_two_pow]
    by_cases hj : t = j
    · subst hj; simp [h, ht]
    · by_cases h32 : j < 32
      · simp [hj, h32]
      · simp [hj, hj32 h32]
  · rename_i h
    by_cases hj : t = j
    · subst hj; simp [h]
    · by_cases h32 : j < 32
      · simp [hj, h32]
      · simp [hj, hj32 h32]

theorem flip_eq_iff (t i k : Nat) : k ^^^ 2 ^ t = i ↔ k = i ^^^ 2 ^ t := by
  constructor
  · intro h; rw [← h, flip_flip]
  · intro h; rw [h, flip_flip]

theorem forRange_induct {σ : Type} (P : Nat → σ → Prop) (n : Nat) (body : σ → Nat → σ)
    (init : σ) (h0 : P 0 init) (hs : ∀ m s, m < n → P m s → P (m + 1) (body s m)) :
    P n (forRange n body init) := by
  have key : ∀ m, m ≤ n → P m (forRange m body init) := by
    intro m
    induction m with
    | zero => intro _; rw [forRange_zero]; exact h0
    | succ m ih =>
      intro hm
      rw [forRange_succ]
      exact hs m _ (by omega) (ih (by omega))
  exact key n le_rfl

theorem hadamard_step {C : Type} [Field C] (s : C) (a : Nat → C) (t : Nat) (ht : t < 32) (m : Nat)
    (hm : m < 2 ^ 32) (new : Nat → C) (hnew : ∀ k, new k = hadamardPartial s a t m k) (k : Nat) :
    (let i0 := m &&& bnot32 (1 <<< t)
     let i1 := m ||| (1 <<< t)
     if m &&& (1 <<< t) = 0 then
       let n1 := write new i0 (new i0 + s * a m)
       write n1 i1 (n1 i1 + s * a m)
     else
       let n1 := write new i0 (new i0 + s * a m)
       write n1 i1 (n1 i1 - s * a m)) k = hadamardPartial s a t (m + 1) k := by
  simp only [Nat.one_shiftLeft, and_mask_eq_zero, or_mask, and_bnot32_mask t m ht hm,
    write_apply, hnew, hadamardPartial]
  have hne := flip_ne t m
  have hfe := flip_eq_iff t m k
  have hfb := testBit_flip t m
  have hlt : ∀ j, j < m + 1 ↔ (j < m ∨ j = m) := fun j => by omega
  have hkk : k ^^^ 2 ^ t ≠ k := flip_ne t k
  cases hb : m.testBit t
  · simp only [hb, if_true, if_false, Bool.false_eq_true, Bool.not_false] at hfb ⊢
    by_cases h1 : k = m ^^^ 2 ^ t
    · subst h1
      simp only [hfb, flip_flip, hne, hne.symm, if_true, if_false, hlt, Nat.lt_irrefl, or_true,
        false_or, or_false, write_apply, hb, Bool.false_eq_true]
      ring
    · by_cases h2 : k = m
      · subst h2
        simp only [hfb, flip_flip, hkk, hkk.symm, if_true, if_false, hlt, Nat.lt_irrefl, or_true,
          false_or, or_false, write_apply, hb, Bool.false_eq_true]
        ring
      · have h3 : ¬ (k ^^^ 2 ^ t = m) := fun h => h1 (hfe.mp h)
        simp only [h1, h2, h3, hlt, write_apply, if_false, or_false, hnew, hadamardPartial]
  · simp only [hb, if_true, if_false, Bool.not_true, Bool.true_eq_false] at hfb ⊢
    by_cases h1 : k = m ^^^ 2 ^ t
    · subst h1
      simp only [hfb, flip_flip, hne, hne.symm, if_true, if_false, hlt, Nat.lt_irrefl, or_true,
        false_or, or_false, write_apply, hb, Bool.false_eq_true]
      ring
    · by_cases h2 : k = m
      · subst h2
        simp only [hfb, flip_flip, hkk, hkk.symm, if_true, if_false, hlt, Nat.lt_irrefl, or_true,
          false_or, or_false, write_apply, hb, Bool.false_eq_true]
        ring
      · have h3 : ¬ (k ^^^ 2 ^ t = m) := fun h => h1 (hfe.mp h)
        simp only [h1, h2, h3, hlt, write_apply, if_false, or_false, hnew, hadamardPartial]

theorem WF.size_eq {C : Type} {st : QuantumState C} (h : st.WF) : st.state_size = 2 ^ st.num_qubits := by
  rw [h.2, Nat.one_shiftLeft]

theorem WF.size_le {C : Type} {st : QuantumState C} (h : st.WF) : st.state_size ≤ 2 ^ 32 := by
  rw [WF.size_eq h]
  exact Nat.pow_le_pow_right (by decide) (le_trans h.1 (by decide))

theorem apply_hadamard_amplitudes {R C : Type} [Field R] [Field C] (M : CMath R C) (st : QuantumState C) (t : Nat) (ht : t < 32)
    (hs : st.state_size ≤ 2 ^ 32) (k : Nat) :
    (apply_hadamard M st t).amplitudes k =
      hadamardPartial (M.ofReal (1 / M.sqrt 2)) st.amplitudes t st.state_size k := by
  unfold apply_hadamard
  simp only
  refine forRange_induct
    (fun m (new : Nat → C) => ∀ k, new k = hadamardPartial (M.ofReal (1 / M.sqrt 2)) st.amplitudes t m k)
    st.state_size _ _ ?_ ?_ k
  · intro k; simp [hadamardPartial]
  · intro m new hm hnew k
    exact hadamard_step _ _ t ht m (by omega) new hnew k

theorem apply_hadamard_spec {R C : Type} [Field R] [Field C] (M : CMath R C) (st : QuantumState C) (hwf : st.WF) (t : Nat)
    (ht : t < st.num_qubits) (k : Nat) (hk : k < 2 ^ st.num_qubits) :
    (apply_hadamard M st t).amplitudes k =
      if k.testBit t then
        M.ofReal (1 / M.sqrt 2) * st.amplitudes (k ^^^ 2 ^ t)
          - M.ofReal (1 / M.sqrt 2) * st.amplitudes k
      else
        M.ofReal (1 / M.sqrt 2) * st.amplitudes k
          + M.ofReal (1 / M.sqrt 2) * st.amplitudes (k ^^^ 2 ^ t) := by
  have h16 : st.num_qubits ≤ 16 := hwf.1
  rw [apply_hadamard_amplitudes M st t (by omega) (WF.size_le hwf), hadamardPartial,
    WF.size_eq hwf]
  simp [hk, flip_lt _ t k ht hk]

theorem forRange_pointwise {C : Type} (n : Nat) (p : Nat → Prop) [DecidablePred p]
    (f : Nat → C → C) (a0 : Nat → C) (k : Nat) :
    forRange n (fun a i => if p i then write a i (f i (a i)) else a) a0 k =
      if k < n ∧ p k then f k (a0 k) else a0 k := by
  refine forRange_induct (fun m (a : Nat → C) => ∀ k, a k = if k < m ∧ p k then f k (a0 k) else a0 k)
    n _ _ ?_ ?_ k
  · intro k; simp
  · intro m a _ ha k
    by_cases hp : p m
    · simp only [hp, if_true, write_apply]
      by_cases hk : k = m
      · subst hk; simp [ha, hp]
      · have : (k < m + 1) = (k < m) := by apply propext; omega
        simp only [hk, if_false, ha, this]
    · simp only [hp, if_false, ha]
      by_cases hk : k = m
      · subst hk; simp [hp]
      · have : (k < m + 1) = (k < m) := by apply propext; omega
        simp only [this]

theorem forRange_sum_filter {R : Type} [AddCommMonoid R] (n : Nat) (p : Nat → Prop)
    [DecidablePred p] (g : Nat → R) :
    forRange n (fun acc i => if p i then acc + g i else acc) 0 =
      ∑ i in (Finset.range n).filter p, g i := by
  induction n with
  | zero => simp [forRange_zero]
  | succ n ih =>
    rw [forRange_succ, ih, Finset.range_succ, Finset.filter_insert]
    by_cases hp : p n
    · simp [hp, add_comm]
    · simp [hp]

theorem forRange_sum {R : Type} [AddCommMonoid R] (n : Nat) (g : Nat → R) :
    forRange n (fun acc i => acc + g i) 0 = ∑ i in Finset.range n, g i := by
  induction n with
  | zero => simp [forRange_zero]
  | succ n ih => rw [forRange_succ, ih, Finset.sum_range_succ]

theorem and_mask (t i : Nat) : i &&& 2 ^ t = if i.testBit t then 2 ^ t else 0 := by
  cases h : i.testBit t
  · simpa using (and_mask_eq_zero t i).mpr h
  · apply Nat.eq_of_testBit_eq
    intro j
    rw [Nat.testBit_and, Nat.testBit_two_pow]
    by_cases hj : t = j
    · subst hj; simp [h]
    · simp [hj]

theorem normalize_state_amplitudes {R C : Type} [Field R] [Field C] (M : CMath R C)
    (st : QuantumState C) (k : Nat) :
    (normalize_state M st).amplitudes k =
      if k < st.state_size then
        st.amplitudes k / M.ofReal (M.sqrt
          (∑ i in Finset.range st.state_size,
            M.cabs (st.amplitudes i) * M.cabs (st.amplitudes i)))
      else st.amplitudes k := by
  unfold normalize_state
  simp only
  rw [forRange_sum]
  have h := forRange_pointwise st.state_size (fun _ => True)
    (fun _ x => x / M.ofReal (M.sqrt
          (∑ i in Finset.range st.state_size,
            M.cabs (st.amplitudes i) * M.cabs (st.amplitudes i)))) st.amplitudes k
  simp only [if_true, and_true] at h
  exact h

theorem collapse_cond (q i b : Nat) (hb : b = 0 ∨ b = 1) :
    i &&& 1 <<< q ≠ b <<< q ↔ i.testBit q ≠ decide (b = 1) := by
  have h2 : (2:Nat) ^ q ≠ 0 := by positivity
  rw [Nat.one_shiftLeft, and_mask, Nat.shiftLeft_eq]
  rcases hb with rfl | rfl <;> cases i.testBit q <;> simp [h2, h2.symm]

theorem measure_qubit_bit {R C : Type} [Field R] [LinearOrder R] [Field C] (M : CMath R C)
    (st : QuantumState C) (q : Nat) (u : R) :
    (measure_qubit M st q u).1 = 0 ∨ (measure_qubit M st q u).1 = 1 := by
  unfold measure_qubit
  simp only
  split
  · right; rfl
  · left; rfl

theorem measure_qubit_state {R C : Type} [Field R] [LinearOrder R] [Field C] (M : CMath R C)
    (st : QuantumState C) (q : Nat) (u : R) :
    (measure_qubit M st q u).2 =
      normalize_state M
        { st with
          amplitudes := (fun k =>
            if k < st.state_size ∧ k.testBit q ≠ decide ((measure_qubit M st q u).1 = 1) then 0
            else st.amplitudes k) } := by
  have hb := measure_qubit_bit M st q u
  have hc := fun i => collapse_cond q i _ hb
  unfold measure_qubit at hc ⊢
  simp only at hc ⊢
  congr 2
  funext k
  simp only [hc]
  exact forRange_pointwise st.state_size _ (fun _ _ => (0 : C)) st.amplitudes k

theorem foldl_invariant {σ α : Type} (P : σ → Prop) (body : σ → α → σ) (l : List α)
    (init : σ) (h0 : P init) (hs : ∀ s x, x ∈ l → P s → P (body s x)) :
    P (l.foldl body init) := by
  induction l generalizing init with
  | nil => exact h0
  | cons x xs ih =>
    rw [List.foldl_cons]
    exact ih _ (hs _ _ (List.mem_cons_self _ _) h0)
      (fun s y hy hp => hs s y (List.mem_cons_of_mem _ hy) hp)

theorem forRange_invariant {σ : Type} (P : σ → Prop) (n : Nat) (body : σ → Nat → σ)
    (init : σ) (h0 : P init) (hs : ∀ s i, i < n → P s → P (body s i)) :
    P (forRange n body init) :=
  foldl_invariant P body _ init h0 (fun s i hi hp => hs s i (List.mem_range.mp hi) hp)

theorem forFromTo_invariant {σ : Type} (P : σ → Prop) (lo hi : Nat) (body : σ → Nat → σ)
    (init : σ) (h0 : P init) (hs : ∀ s i, lo ≤ i → i < hi → P s → P (body s i)) :
    P (forFromTo lo hi body init) := by
  refine foldl_invariant P body _ init h0 (fun s i hi' hp => ?_)
  rw [List.mem_range'_1] at hi'
  exact hs s i hi'.1 (by omega) hp

theorem lt_two_pow_iff (k m : Nat) : k < 2 ^ m ↔ ∀ j, m ≤ j → k.testBit j = false := by
  constructor
  · intro h j hj
    exact Nat.testBit_eq_false_of_lt (lt_of_lt_of_le h (Nat.pow_le_pow_right (by decide) hj))
  · intro h
    exact Nat.lt_pow_two_of_testBit k h

theorem flip_lt_iff_of_set (k i : Nat) (hb : k.testBit i = true) :
    k ^^^ 2 ^ i < 2 ^ i ↔ k < 2 ^ (i + 1) := by
  rw [lt_two_pow_iff, lt_two_pow_iff]
  constructor
  · intro h j hj
    have := h j (by omega)
    rwa [testBit_flip_ne i j k (by omega)] at this
  · intro h j hj
    by_cases hij : i = j
    · subst hij; rw [testBit_flip, hb]; rfl
    · rw [testBit_flip_ne i j k hij]; exact h j (by omega)

theorem lt_iff_of_clear (k i : Nat) (hb : k.testBit i = false) :
    k < 2 ^ i ↔ k < 2 ^ (i + 1) := by
  rw [lt_two_pow_iff, lt_two_pow_iff]
  constructor
  · intro h j hj; exact h j (by omega)
  · intro h j hj
    by_cases hij : i = j
    · subst hij; exact hb
    · exact h j (by omega)

theorem not_lt_of_testBit (k i : Nat) (hb : k.testBit i = true) : ¬ k < 2 ^ i := by
  intro h
  rw [Nat.testBit_eq_false_of_lt h] at hb
  exact Bool.false_ne_true hb

theorem apply_phase_amplitudes {R C : Type} [Field C] (M : CMath R C) (st : QuantumState C)
    (t : Nat) (angle : R) (k : Nat) :
    (apply_phase M st t angle).amplitudes k =
      if k < st.state_size ∧ k.testBit t = true then
        st.amplitudes k * (M.ofReal (M.cos angle) + M.I * M.ofReal (M.sin angle))
      else st.amplitudes k := by
  unfold apply_phase
  simp only [Nat.one_shiftLeft, ne_eq, and_mask_eq_zero, Bool.not_eq_false]
  exact forRange_pointwise st.state_size (fun i => i.testBit t = true)
    (fun _ x => x * (M.ofReal (M.cos angle) + M.I * M.ofReal (M.sin angle))) st.amplitudes k

theorem qftInv_hadamard {R C : Type} [Field R] [Field C] (M : CMath R C) (n i : Nat)
    (hn : n ≤ 16) (hi : i < n) (st : QuantumState C)
    (h : QftInv (M.ofReal (1 / M.sqrt 2)) n i st) :
    QftInv (M.ofReal (1 / M.sqrt 2)) n (i + 1) (apply_hadamard M st i) := by
  obtain ⟨h1, h2, h3⟩ := h
  have hwf : st.WF := ⟨by rw [h1]; exact hn, by rw [h2, h1]⟩
  refine ⟨h1, h2, ?_⟩
  intro k hk
  have hk' : k < 2 ^ st.num_qubits := by rw [h1]; exact hk
  rw [apply_hadamard_spec M st hwf i (by rw [h1]; exact hi) k hk']
  have hf : k ^^^ 2 ^ i < 2 ^ n := flip_lt n i k hi hk
  rw [h3 k hk, h3 _ hf]
  cases hb : k.testBit i
  · have hfb : (k ^^^ 2 ^ i).testBit i = true := by rw [testBit_flip, hb]; rfl
    simp only [Bool.false_eq_true, if_false, if_neg (not_lt_of_testBit _ i hfb),
      ← lt_iff_of_clear k i hb]
    split <;> ring
  · simp only [if_true, if_neg (not_lt_of_testBit _ i hb), flip_lt_iff_of_set k i hb]
    split <;> ring

theorem qftInv_phase {R C : Type} [Field C] (M : CMath R C) (s : C) (n i j : Nat)
    (hj : i ≤ j) (angle : R) (st : QuantumState C) (h : QftInv s n i st) :
    QftInv s n i (apply_phase M st j angle) := by
  obtain ⟨h1, h2, h3⟩ := h
  refine ⟨h1, h2, ?_⟩
  intro k hk
  rw [apply_phase_amplitudes, h3 k hk]
  split
  · rename_i hc
    have : ¬ k < 2 ^ i := fun hlt =>
      not_lt_of_testBit k j hc.2 (lt_of_lt_of_le hlt (Nat.pow_le_pow_right (by decide) hj))
    simp [this]
  · rfl

theorem constInv_swap {C : Type} (c : C) (n q1 q2 : Nat) (h1 : q1 < n) (h2 : q2 < n)
    (st : QuantumState C) (h : ConstInv c n st) : ConstInv c n (apply_swap st q1 q2) := by
  obtain ⟨hn, hs, ha⟩ := h
  refine ⟨hn, hs, ?_⟩
  unfold apply_swap
  simp only
  refine forRange_invariant (fun (a : Nat → C) => ∀ k, k < 2 ^ n → a k = c) _ _ _ ha ?_
  intro a i hi hP k hk
  rw [hs, Nat.one_shiftLeft] at hi
  have hj : i ^^^ 1 <<< q1 ^^^ 1 <<< q2 < 2 ^ n := by
    rw [Nat.one_shiftLeft, Nat.one_shiftLeft]
    exact flip_lt n q2 _ h2 (flip_lt n q1 i h1 hi)
  by_cases hc : (if i &&& 1 <<< q1 ≠ 0 then 1 else 0 : Nat) ≠ (if i &&& 1 <<< q2 ≠ 0 then 1 else 0)
  · dsimp only
    rw [if_pos hc]
    simp only [write_apply]
    split
    · exact hP i hi
    · split
      · exact hP _ hj
      · exact hP k hk
  · dsimp only
    rw [if_neg hc]
    exact hP k hk

theorem qft_first_loop {R C : Type} [Field R] [Field C] (M : CMath R C) (n : Nat)
    (hn : n ≤ 16) (st : QuantumState C) (h : QftInv (M.ofReal (1 / M.sqrt 2)) n 0 st) :
    QftInv (M.ofReal (1 / M.sqrt 2)) n n
      (forRange st.num_qubits
        (fun s i =>
          let sh := apply_hadamard M s i
          forFromTo (i + 1) sh.num_qubits
            (fun s j =>
              let angle : R := PI / M.pow 2 ((j - i : Nat) : R)
              apply_phase M s j angle)
            sh)
        st) := by
  have hq : st.num_qubits = n := h.1
  rw [hq]
  refine forRange_induct (fun i s => QftInv (M.ofReal (1 / M.sqrt 2)) n i s) n _ _ h ?_
  intro i s hi hs
  simp only
  refine forFromTo_invariant (fun s => QftInv (M.ofReal (1 / M.sqrt 2)) n (i + 1) s) _ _ _ _
    (qftInv_hadamard M n i hn hi s hs) ?_
  intro s' j hj _ hs'
  exact qftInv_phase M _ n (i + 1) j hj _ s' hs'

theorem qft_zero_state_generic {R C : Type} [Field R] [Field C] (M : CMath R C) (n : Nat)
    (hn : n ≤ 16) (k : Nat) (hk : k < 2 ^ n) :
    (create_quantum_state n).map (fun st => (quantum_fourier_transform M st).amplitudes k) =
      some ((M.ofReal (1 / M.sqrt 2)) ^ n) := by
  have h : ¬ n > MAX_QUBITS := by unfold MAX_QUBITS; omega
  rw [create_quantum_state, if_neg h, Option.map_some']
  congr 1
  have h0 : QftInv (M.ofReal (1 / M.sqrt 2)) n 0
      ({ num_qubits := n, state_size := 1 <<< n, amplitudes := write (fun _ => 0) 0 1 } :
        QuantumState C) := by
    refine ⟨rfl, rfl, ?_⟩
    intro k _
    simp [write_apply]
  have h1 := qft_first_loop M n hn _ h0
  have h2 : ConstInv ((M.ofReal (1 / M.sqrt 2)) ^ n) n
      (forRange n
        (fun s i =>
          let sh := apply_hadamard M s i
          forFromTo (i + 1) sh.num_qubits
            (fun s j =>
              let angle : R := PI / M.pow 2 ((j - i : Nat) : R)
              apply_phase M s j angle)
            sh)
        ({ num_qubits := n, state_size := 1 <<< n, amplitudes := write (fun _ => 0) 0 1 } :
          QuantumState C)) := by
    obtain ⟨a, b, c⟩ := h1
    exact ⟨a, b, fun k hk => by rw [c k hk, if_pos hk]⟩
  unfold quantum_fourier_transform
  simp only
  have h3 := forRange_invariant (fun s => ConstInv ((M.ofReal (1 / M.sqrt 2)) ^ n) n s)
    (n / 2) (fun s i => apply_swap s i (s.num_qubits - 1 - i)) _ h2
    (fun s i hi hs => by
      have hq : s.num_qubits = n := hs.1
      exact constInv_swap _ n i _ (by omega) (by rw [hq]; omega) s hs)
  have hq : (forRange n
        (fun s i =>
          let sh := apply_hadamard M s i
          forFromTo (i + 1) sh.num_qubits
            (fun s j =>
              let angle : R := PI / M.pow 2 ((j - i : Nat) : R)
              apply_phase M s j angle)
            sh)
        ({ num_qubits := n, state_size := 1 <<< n, amplitudes := write (fun _ => 0) 0 1 } :
          QuantumState C)).num_qubits = n := h2.1
  rw [hq]
  exact h3.2.2 k hk

theorem apply_hadamard_agree {R C : Type} [Field R] [Field C] (M : CMath R C) (n t : Nat)
    (hn : n ≤ 16) (ht : t < n) (st : QuantumState C) (hq : st.num_qubits = n)
    (hs : st.state_size = 1 <<< n) (b : Nat → C) (hab : AgreeBelow (2 ^ n) st.amplitudes b) :
    AgreeBelow (2 ^ n) (apply_hadamard M st t).amplitudes
      (hadamardVec (M.ofReal (1 / M.sqrt 2)) t b) := by
  intro k hk
  have hwf : st.WF := ⟨by rw [hq]; exact hn, by rw [hs, hq]⟩
  rw [apply_hadamard_spec M st hwf t (by rw [hq]; exact ht) k (by rw [hq]; exact hk)]
  unfold hadamardVec
  rw [hab k hk, hab _ (flip_lt n t k ht hk)]

theorem hadamard_all_agree {R C : Type} [Field R] [Field C] (M : CMath R C) (n : Nat)
    (hn : n ≤ 16) (st : QuantumState C) (hq : st.num_qubits = n)
    (hs : st.state_size = 1 <<< n) (b : Nat → C) (hab : AgreeBelow (2 ^ n) st.amplitudes b) :
    (forRange n (fun s i => apply_hadamard M s i) st).num_qubits = n ∧
    (forRange n (fun s i => apply_hadamard M s i) st).state_size = 1 <<< n ∧
    AgreeBelow (2 ^ n) (forRange n (fun s i => apply_hadamard M s i) st).amplitudes
      (hadamardAllVec (M.ofReal (1 / M.sqrt 2)) n b) := by
  unfold hadamardAllVec
  have key : ∀ m, m ≤ n →
      (forRange m (fun s i => apply_hadamard M s i) st).num_qubits = n ∧
      (forRange m (fun s i => apply_hadamard M s i) st).state_size = 1 <<< n ∧
      AgreeBelow (2 ^ n) (forRange m (fun s i => apply_hadamard M s i) st).amplitudes
        (forRange m (fun v t => hadamardVec (M.ofReal (1 / M.sqrt 2)) t v) b) := by
    intro m
    induction m with
    | zero => intro _; simp only [forRange_zero]; exact ⟨hq, hs, hab⟩
    | succ m ih =>
      intro hm
      obtain ⟨h1, h2, h3⟩ := ih (by omega)
      rw [forRange_succ, forRange_succ]
      exact ⟨h1, h2, apply_hadamard_agree M n m hn (by omega) _ h1 h2 _ h3⟩
  exact key n le_rfl

theorem grover_diffusion_agree {R C : Type} [Field R] [Field C] (M : CMath R C) (n : Nat)
    (hn : n ≤ 16) (st : QuantumState C) (hq : st.num_qubits = n)
    (hs : st.state_size = 1 <<< n) (b : Nat → C) (hab : AgreeBelow (2 ^ n) st.amplitudes b) :
    (grover_diffusion M st).num_qubits = n ∧
    (grover_diffusion M st).state_size = 1 <<< n ∧
    AgreeBelow (2 ^ n) (grover_diffusion M st).amplitudes
      (hadamardAllVec (M.ofReal (1 / M.sqrt 2)) n
        (write (hadamardAllVec (M.ofReal (1 / M.sqrt 2)) n b) 0
          (hadamardAllVec (M.ofReal (1 / M.sqrt 2)) n b 0 * -1))) := by
  unfold grover_diffusion
  simp only
  rw [hq]
  obtain ⟨h1, h2, h3⟩ := hadamard_all_agree M n hn st hq hs b hab
  rw [h1]
  refine hadamard_all_agree M n hn ⟨n, _, _⟩ rfl h2 _ ?_
  intro k hk
  simp only [write_apply]
  rw [h3 k hk, h3 0 (by positivity)]

theorem hadamardAllVec_three {C : Type} [Field C] (s : C) (a : Nat → C) :
    hadamardAllVec s 3 a = hadamardVec s 2 (hadamardVec s 1 (hadamardVec s 0 a)) := by
  simp [hadamardAllVec, forRange, List.range_succ]

theorem hadamardAllVec_three_values {C : Type} [Field C] (s : C) (a : Nat → C) :
    hadamardAllVec s 3 a 0 = s ^ 3 * (a 0 + a 1 + a 2 + a 3 + a 4 + a 5 + a 6 + a 7) ∧
    hadamardAllVec s 3 a 1 = s ^ 3 * (a 0 - a 1 + a 2 - a 3 + a 4 - a 5 + a 6 - a 7) ∧
    hadamardAllVec s 3 a 2 = s ^ 3 * (a 0 + a 1 - a 2 - a 3 + a 4 + a 5 - a 6 - a 7) ∧
    hadamardAllVec s 3 a 3 = s ^ 3 * (a 0 - a 1 - a 2 + a 3 + a 4 - a 5 - a 6 + a 7) ∧
    hadamardAllVec s 3 a 4 = s ^ 3 * (a 0 + a 1 + a 2 + a 3 - a 4 - a 5 - a 6 - a 7) ∧
    hadamardAllVec s 3 a 5 = s ^ 3 * (a 0 - a 1 + a 2 - a 3 - a 4 + a 5 - a 6 + a 7) ∧
    hadamardAllVec s 3 a 6 = s ^ 3 * (a 0 + a 1 - a 2 - a 3 - a 4 - a 5 + a 6 + a 7) ∧
    hadamardAllVec s 3 a 7 = s ^ 3 * (a 0 - a 1 - a 2 + a 3 - a 4 + a 5 + a 6 - a 7) := by
  rw [hadamardAllVec_three]
  refine ⟨?_, ?_, ?_, ?_, ?_, ?_, ?_, ?_⟩ <;> simp [hadamardVec, Nat.testBit] <;> ring

theorem diffusion_three {C : Type} [Field C] (s : C) (a : Nat → C) (k : Nat) (hk : k < 8) :
    hadamardAllVec s 3 (write (hadamardAllVec s 3 a) 0 (hadamardAllVec s 3 a 0 * -1)) k =
      s ^ 6 * (8 * a k - 2 * (a 0 + a 1 + a 2 + a 3 + a 4 + a 5 + a 6 + a 7)) := by
  obtain ⟨h0, h1, h2, h3, h4, h5, h6, h7⟩ := hadamardAllVec_three_values s
    (write (hadamardAllVec s 3 a) 0 (hadamardAllVec s 3 a 0 * -1))
  obtain ⟨g0, g1, g2, g3, g4, g5, g6, g7⟩ := hadamardAllVec_three_values s a
  simp only [write_apply, if_true, OfNat.ofNat_ne_zero, one_ne_zero, if_false] at h0 h1 h2 h3 h4 h5 h6 h7
  interval_cases k
  · rw [h0, g0, g1, g2, g3, g4, g5, g6, g7]; ring
  · rw [h1, g0, g1, g2, g3, g4, g5, g6, g7]; ring
  · rw [h2, g0, g1, g2, g3, g4, g5, g6, g7]; ring
  · rw [h3, g0, g1, g2, g3, g4, g5, g6, g7]; ring
  · rw [h4, g0, g1, g2, g3, g4, g5, g6, g7]; ring
  · rw [h5, g0, g1, g2, g3, g4, g5, g6, g7]; ring
  · rw [h6, g0, g1, g2, g3, g4, g5, g6, g7]; ring
  · rw [h7, g0, g1, g2, g3, g4, g5, g6, g7]; ring

theorem hadamardAllVec_three_basis {C : Type} [Field C] (s : C) (k : Nat) (hk : k < 8) :
    hadamardAllVec s 3 (write (fun _ => 0) 0 1) k = s ^ 3 := by
  obtain ⟨h0, h1, h2, h3, h4, h5, h6, h7⟩ := hadamardAllVec_three_values s
    (write (fun _ => (0 : C)) 0 1)
  simp only [write_apply, if_true, OfNat.ofNat_ne_zero, one_ne_zero, if_false] at h0 h1 h2 h3 h4 h5 h6 h7
  interval_cases k
  · rw [h0]; ring
  · rw [h1]; ring
  · rw [h2]; ring
  · rw [h3]; ring
  · rw [h4]; ring
  · rw [h5]; ring
  · rw [h6]; ring
  · rw [h7]; ring

theorem groverInv_init {R C : Type} [Field R] [Field C] (M : CMath R C) (m : Nat) :
    GroverInv m ((M.ofReal (1 / M.sqrt 2)) ^ 3) ((M.ofReal (1 / M.sqrt 2)) ^ 3)
      (forRange 3 (fun s i => apply_hadamard M s i)
        ({ num_qubits := 3, state_size := 1 <<< 3, amplitudes := write (fun _ => 0) 0 1 } :
          QuantumState C)) := by
  obtain ⟨h1, h2, h3⟩ := hadamard_all_agree M 3 (by decide)
    ({ num_qubits := 3, state_size := 1 <<< 3, amplitudes := write (fun _ => 0) 0 1 } :
          QuantumState C) rfl rfl _ (fun _ _ => rfl)
  refine ⟨h1, h2, ?_⟩
  intro k hk
  rw [h3 k hk, hadamardAllVec_three_basis _ k hk]
  simp

theorem groverInv_step {R C : Type} [Field R] [Field C] [CharZero C] (M : CMath R C)
    (hs : (M.ofReal (1 / M.sqrt 2)) ^ 6 = 1 / 8) (m : Nat) (hm : m < 8) (x y : C)
    (st : QuantumState C) (h : GroverInv m x y st) :
    GroverInv m (-x - (-x + 7 * y) / 4) (y - (-x + 7 * y) / 4)
      (grover_diffusion M (grover_oracle st m)) := by
  obtain ⟨h1, h2, h3⟩ := h
  obtain ⟨g1, g2, g3⟩ := grover_diffusion_agree M 3 (by decide) (grover_oracle st m) h1 h2
    (fun k => if k = m then -x else y)
    (fun k hk => by
      unfold grover_oracle
      simp only [write_apply]
      rw [h3 k hk, h3 m hm]
      split <;> simp)
  refine ⟨g1, g2, ?_⟩
  intro k hk
  rw [g3 k hk, diffusion_three _ _ k hk, hs]
  have hsum : (if 0 = m then -x else y) + (if 1 = m then -x else y) + (if 2 = m then -x else y)
      + (if 3 = m then -x else y) + (if 4 = m then -x else y) + (if 5 = m then -x else y)
      + (if 6 = m then -x else y) + (if 7 = m then -x else y) = -x + 7 * y := by
    interval_cases m <;> simp <;> ring
  simp only [hsum]
  split <;> ring

theorem groverInv_two_steps {R C : Type} [Field R] [Field C] [CharZero C] (M : CMath R C)
    (hs : (M.ofReal (1 / M.sqrt 2)) ^ 6 = 1 / 8) (m : Nat) (hm : m < 8) (c : C)
    (st : QuantumState C) (h : GroverInv m c c st) :
    GroverInv m (11 / 4 * c) (-1 / 4 * c)
      (forRange 2 (fun s _ => grover_diffusion M (grover_oracle s m)) st) := by
  have e : forRange 2 (fun s (_ : Nat) => grover_diffusion M (grover_oracle s m)) st =
      grover_diffusion M (grover_oracle (grover_diffusion M (grover_oracle st m)) m) := by
    simp [forRange, List.range_succ]
  rw [e]
  have h2 := groverInv_step M hs m hm _ _ _ (groverInv_step M hs m hm _ _ _ h)
  have ex : -(-c - (-c + 7 * c) / 4) - (-(-c - (-c + 7 * c) / 4) + 7 * (c - (-c + 7 * c) / 4)) / 4
      = 11 / 4 * c := by ring
  have ey : c - (-c + 7 * c) / 4 - (-(-c - (-c + 7 * c) / 4) + 7 * (c - (-c + 7 * c) / 4)) / 4
      = -1 / 4 * c := by ring
  rw [ex, ey] at h2
  exact h2

theorem grover_iterations_eight (M : CMath ℝ ℂ) (hM : M.IsExact) :
    M.toInt (PI / 4 * M.sqrt ((8 : Nat) : ℝ)) = 2 := by
  obtain ⟨hsqrt, -, -, -, -, -, -, hint⟩ := hM
  rw [hsqrt, hint]
  have h1 : (28 / 10 : ℝ) ≤ Real.sqrt 8 := Real.le_sqrt_of_sq_le (by norm_num)
  have h2 : Real.sqrt 8 < 29 / 10 := (Real.sqrt_lt' (by norm_num)).mpr (by norm_num)
  have hpi : (PI : ℝ) = 314159265358979323846 / 100000000000000000000 := rfl
  have h3 : (2 : ℝ) ≤ PI / 4 * Real.sqrt 8 := by rw [hpi]; nlinarith
  have h4 : PI / 4 * Real.sqrt 8 < 3 := by rw [hpi]; nlinarith
  have h0 : (0 : ℝ) ≤ PI / 4 * Real.sqrt 8 := by linarith
  simp only [Nat.cast_ofNat, if_pos h0]
  rw [Int.floor_eq_iff]
  constructor
  · exact_mod_cast h3
  · norm_num; linarith

theorem exact_scale_pow_six (M : CMath ℝ ℂ) (hM : M.IsExact) :
    (M.ofReal (1 / M.sqrt 2)) ^ 6 = 1 / 8 := by
  obtain ⟨hsqrt, -, -, -, -, hof, -, -⟩ := hM
  rw [hsqrt, hof]
  have h : Real.sqrt 2 ^ 2 = 2 := Real.sq_sqrt (by norm_num)
  have h6 : (1 / Real.sqrt 2) ^ 6 = (1 / 8 : ℝ) := by
    rw [div_pow, one_pow, show Real.sqrt 2 ^ 6 = (Real.sqrt 2 ^ 2) ^ 3 by ring, h]
    norm_num
  have := congrArg (fun x : ℝ => (x : ℂ)) h6
  simpa using this

/-- In-place exchange loop: index `i` is exchanged with `p i` whenever `V i`. After the
first `n` indices an entry holds its partner's old value exactly when one of the two, and
not both, has been visited. -/
theorem swap_loop {C : Type} (p : Nat → Nat) (hp : ∀ i, p (p i) = i) (hne : ∀ i, p i ≠ i)
    (V : Nat → Prop) [DecidablePred V] (a0 : Nat → C) (n k : Nat) :
    forRange n
      (fun a i =>
        if V i then
          let j := p i
          let temp := a i
          let a1 := write a i (a j)
          write a1 j temp
        else a) a0 k =
      if Xor' (V k ∧ k < n) (V (p k) ∧ p k < n) then a0 (p k) else a0 k := by
  refine forRange_induct
    (fun m (a : Nat → C) => ∀ k, a k =
      if Xor' (V k ∧ k < m) (V (p k) ∧ p k < m) then a0 (p k) else a0 k) n _ _ ?_ ?_ k
  · intro k; simp [Xor']
  · intro m a _ ha k
    have hlt : ∀ j, j < m + 1 ↔ (j < m ∨ j = m) := fun j => by omega
    by_cases hV : V m
    · simp only [hV, if_true, write_apply]
      by_cases h1 : k = p m
      · subst h1
        have hpm : p m ≠ m := hne m
        rw [if_pos rfl, ha m, hp]
        simp only [hlt, hp, hV, hpm, Nat.lt_irrefl, or_false, or_true, and_true, false_or,
          true_and, Xor', and_false, not_false_eq_true, not_true_eq_false]
        by_cases hc : V (p m) ∧ p m < m <;> simp [hc]
      · by_cases h2 : k = m
        · subst h2
          have hpk : p k ≠ k := hne k
          rw [if_neg h1, if_pos rfl, ha (p k), hp]
          simp only [hlt, hV, hpk, Nat.lt_irrefl, or_false, or_true, and_true, false_or,
            true_and, Xor', and_false, not_false_eq_true, not_true_eq_false]
          by_cases hc : V (p k) ∧ p k < k <;> simp [hc]
        · have h3 : p k ≠ m := fun h => h1 (by rw [← h, hp])
          rw [if_neg h1, if_neg h2, ha k]
          simp only [hlt, h2, h3, or_false]
    · simp only [hV, if_false, ha]
      have e1 : (V k ∧ k < m + 1) ↔ (V k ∧ k < m) := by
        constructor
        · rintro ⟨a, b⟩
          refine ⟨a, ?_⟩
          rcases (hlt k).mp b with h | h
          · exact h
          · subst h; exact absurd a hV
        · rintro ⟨a, b⟩; exact ⟨a, by omega⟩
      have e2 : (V (p k) ∧ p k < m + 1) ↔ (V (p k) ∧ p k < m) := by
        constructor
        · rintro ⟨a, b⟩
          refine ⟨a, ?_⟩
          rcases (hlt (p k)).mp b with h | h
          · exact h
          · rw [h] at a; exact absurd a hV
        · rintro ⟨a, b⟩; exact ⟨a, by omega⟩
      simp only [Xor', e1, e2]

theorem forRangeStep2_eq {σ : Type} (n : Nat) (body : σ → Nat → σ) (init : σ) :
    forRangeStep2 n body init =
      forRange n (fun s i => if i % 2 = 0 then body s i else s) init := by
  induction n with
  | zero => simp [forRangeStep2, forRange]
  | succ n ih =>
    rw [forRange_succ, ← ih]
    unfold forRangeStep2
    by_cases h : n % 2 = 0
    · have e : (n + 1 + 1) / 2 = (n + 1) / 2 + 1 := by omega
      have e2 : 2 * ((n + 1) / 2) = n := by omega
      rw [e, List.range'_concat, List.foldl_append, if_pos h]
      simp [e2]
    · have e : (n + 1 + 1) / 2 = (n + 1) / 2 := by omega
      rw [e, if_neg h]

theorem flip_lt_iff (n t k : Nat) (ht : t < n) : k ^^^ 2 ^ t < 2 ^ n ↔ k < 2 ^ n := by
  constructor
  · intro h
    have := flip_lt n t _ ht h
    rwa [flip_flip] at this
  · exact flip_lt n t k ht

theorem mod_two_eq_zero_iff_testBit (k : Nat) : k % 2 = 0 ↔ k.testBit 0 = false := by
  rw [Nat.testBit_zero]
  have : k % 2 = 0 ∨ k % 2 = 1 := by omega
  rcases this with h | h <;> simp [h]

theorem apply_pauli_x_amplitudes {C : Type} (st : QuantumState C) (t k : Nat) :
    (apply_pauli_x st t).amplitudes k =
      if Xor' (k % 2 = 0 ∧ k < st.state_size)
          ((k ^^^ 2 ^ t) % 2 = 0 ∧ k ^^^ 2 ^ t < st.state_size)
      then st.amplitudes (k ^^^ 2 ^ t) else st.amplitudes k := by
  unfold apply_pauli_x
  simp only [Nat.one_shiftLeft]
  rw [forRangeStep2_eq]
  exact swap_loop (fun i => i ^^^ 2 ^ t) (flip_flip t) (flip_ne t) (fun i => i % 2 = 0)
    st.amplitudes st.state_size k

theorem apply_pauli_x_spec {C : Type} (st : QuantumState C) (hwf : st.WF) (t : Nat)
    (ht : t < st.num_qubits) (k : Nat) :
    (apply_pauli_x st t).amplitudes k =
      if t = 0 ∧ k < 2 ^ st.num_qubits then st.amplitudes (k ^^^ 2 ^ t) else st.amplitudes k := by
  rw [apply_pauli_x_amplitudes, WF.size_eq hwf]
  simp only [flip_lt_iff _ t k ht, mod_two_eq_zero_iff_testBit]
  by_cases h0 : t = 0
  · subst h0
    simp only [testBit_flip]
    by_cases hk : k < 2 ^ st.num_qubits <;> cases k.testBit 0 <;> simp [Xor', hk]
  · simp only [testBit_flip_ne t 0 k h0]
    simp [Xor', h0]

theorem apply_cnot_amplitudes {C : Type} (st : QuantumState C) (c t k : Nat) :
    (apply_cnot st c t).amplitudes k =
      if Xor' (k.testBit c = true ∧ k < st.state_size)
          ((k ^^^ 2 ^ t).testBit c = true ∧ k ^^^ 2 ^ t < st.state_size)
      then st.amplitudes (k ^^^ 2 ^ t) else st.amplitudes k := by
  unfold apply_cnot
  simp only [Nat.one_shiftLeft, ne_eq, and_mask_eq_zero, Bool.not_eq_false]
  exact swap_loop (fun i => i ^^^ 2 ^ t) (flip_flip t) (flip_ne t) (fun i => i.testBit c = true)
    st.amplitudes st.state_size k

theorem apply_cnot_distinct {C : Type} (st : QuantumState C) (n c t : Nat)
    (hs : st.state_size = 1 <<< n) (hct : c ≠ t) (ht : t < n) :
    apply_cnot st c t = st := by
  have e : (apply_cnot st c t).amplitudes = st.amplitudes := by
    funext k
    rw [apply_cnot_amplitudes, hs, Nat.one_shiftLeft]
    simp only [flip_lt_iff _ t k ht, testBit_flip_ne t c k (Ne.symm hct)]
    simp [Xor']
  cases st
  simp only [apply_cnot] at e ⊢
  rw [e]

theorem apply_controlled_phase_amplitudes {R C : Type} [Field C] (M : CMath R C)
    (st : QuantumState C) (c t : Nat) (angle : R) (k : Nat) :
    (apply_controlled_phase M st c t angle).amplitudes k =
      if k < st.state_size ∧ (k.testBit c = true ∧ k.testBit t = true) then
        st.amplitudes k * (M.ofReal (M.cos angle) + M.I * M.ofReal (M.sin angle))
      else st.amplitudes k := by
  unfold apply_controlled_phase
  simp only [Nat.one_shiftLeft, ne_eq, and_mask_eq_zero, Bool.not_eq_false]
  exact forRange_pointwise st.state_size (fun i => i.testBit c = true ∧ i.testBit t = true)
    (fun _ x => x * (M.ofReal (M.cos angle) + M.I * M.ofReal (M.sin angle))) st.amplitudes k

theorem measure_qubit_fst {R C : Type} [Field R] [LinearOrder R] [Field C] (M : CMath R C)
    (st : QuantumState C) (q : Nat) (u : R) :
    (measure_qubit M st q u).1 =
      if u > ∑ i in (Finset.range st.state_size).filter (fun i => i.testBit q = false),
            M.cabs (st.amplitudes i) * M.cabs (st.amplitudes i)
      then 1 else 0 := by
  unfold measure_qubit
  simp only [Nat.one_shiftLeft, and_mask_eq_zero]
  rw [forRange_sum_filter st.state_size (fun i => i.testBit q = false)
    (fun i => M.cabs (st.amplitudes i) * M.cabs (st.amplitudes i))]

theorem measure_qubit_shape {R C : Type} [Field R] [LinearOrder R] [Field C] (M : CMath R C)
    (st : QuantumState C) (q : Nat) (u : R) :
    (measure_qubit M st q u).2.num_qubits = st.num_qubits ∧
    (measure_qubit M st q u).2.state_size = st.state_size := by
  rw [measure_qubit_state]
  exact ⟨rfl, rfl⟩

/-- Measurement of a state that has one amplitude `x` at an index `r0` with bit `q` clear and
one amplitude `y` at an index `r1` with bit `q` set. -/
theorem measure_two_point (M : CMath ℝ ℂ) (hM : M.IsExact) (st : QuantumState ℂ) (q : Nat)
    (u : ℝ) (r0 r1 : Nat) (x y : ℂ) (h0 : r0 < st.state_size) (h1 : r1 < st.state_size)
    (hb0 : r0.testBit q = false) (hb1 : r1.testBit q = true)
    (ha : ∀ k, k < st.state_size →
      st.amplitudes k = if k = r0 then x else if k = r1 then y else 0) :
    (measure_qubit M st q u).1 = (if u > Complex.abs x ^ 2 then 1 else 0) ∧
    ∀ k, k < st.state_size → (measure_qubit M st q u).2.amplitudes k =
      if u > Complex.abs x ^ 2 then
        (if k = r1 then y / (Real.sqrt (Complex.abs y ^ 2) : ℂ) else 0)
      else (if k = r0 then x / (Real.sqrt (Complex.abs x ^ 2) : ℂ) else 0) := by
  have hM' := hM
  obtain ⟨hsqrt, -, -, -, habs, hof, -, -⟩ := hM
  have hne : r0 ≠ r1 := fun h => by rw [h, hb1] at hb0; exact Bool.noConfusion hb0
  have hres : (measure_qubit M st q u).1 = (if u > Complex.abs x ^ 2 then 1 else 0) := by
    rw [measure_qubit_fst, habs]
    have : ∑ i in (Finset.range st.state_size).filter (fun i => i.testBit q = false),
        Complex.abs (st.amplitudes i) * Complex.abs (st.amplitudes i) = Complex.abs x ^ 2 := by
      rw [Finset.sum_eq_single r0]
      · rw [ha r0 h0, if_pos rfl, pow_two]
      · intro i hi hir
        rw [Finset.mem_filter, Finset.mem_range] at hi
        have hi1 : i ≠ r1 := fun h => by rw [h, hb1] at hi; exact Bool.noConfusion hi.2
        rw [ha i hi.1, if_neg hir, if_neg hi1]
        simp
      · intro h
        exact absurd (Finset.mem_filter.mpr ⟨Finset.mem_range.mpr h0, hb0⟩) h
    simp only [this]
  refine ⟨hres, ?_⟩
  intro k hk
  rw [measure_qubit_state, normalize_state_amplitudes]
  simp only [hres, habs, hsqrt, hof, if_pos hk]
  by_cases hu : u > Complex.abs x ^ 2
  · simp only [hu, if_true, decide_True]
    have hc : ∀ i, i < st.state_size →
        (if i < st.state_size ∧ i.testBit q ≠ true then (0 : ℂ) else st.amplitudes i) =
          if i = r1 then y else 0 := by
      intro i hi
      rw [ha i hi]
      by_cases hi1 : i = r1
      · subst hi1; simp [hb1, hne.symm]
      · by_cases hi0 : i = r0
        · subst hi0; simp [hb0, hi, hne]
        · simp [hi0, hi1]
    have hsum : ∑ i in Finset.range st.state_size,
        Complex.abs (if i < st.state_size ∧ i.testBit q ≠ true then (0 : ℂ) else st.amplitudes i) *
        Complex.abs (if i < st.state_size ∧ i.testBit q ≠ true then (0 : ℂ) else st.amplitudes i)
        = Complex.abs y ^ 2 := by
      rw [Finset.sum_eq_single r1]
      · rw [hc r1 h1, if_pos rfl, pow_two]
      · intro i hi hir
        rw [hc i (Finset.mem_range.mp hi), if_neg hir]
        simp
      · intro h
        exact absurd (Finset.mem_range.mpr h1) h
    rw [hsum, hc k hk]
    split <;> simp
  · have hd : decide ((0 : Nat) = 1) = false := rfl
    simp only [hu, if_false, hd]
    have hc : ∀ i, i < st.state_size →
        (if i < st.state_size ∧ i.testBit q ≠ false then (0 : ℂ) else st.amplitudes i) =
          if i = r0 then x else 0 := by
      intro i hi
      rw [ha i hi]
      by_cases hi0 : i = r0
      · subst hi0; simp [hb0]
      · by_cases hi1 : i = r1
        · subst hi1; simp [hb1, hi, hi0]
        · simp [hi0, hi1]
    have hsum : ∑ i in Finset.range st.state_size,
        Complex.abs (if i < st.state_size ∧ i.testBit q ≠ false then (0 : ℂ) else st.amplitudes i) *
        Complex.abs (if i < st.state_size ∧ i.testBit q ≠ false then (0 : ℂ) else st.amplitudes i)
        = Complex.abs x ^ 2 := by
      rw [Finset.sum_eq_single r0]
      · rw [hc r0 h0, if_pos rfl, pow_two]
      · intro i hi hir
        rw [hc i (Finset.mem_range.mp hi), if_neg hir]
        simp
      · intro h
        exact absurd (Finset.mem_range.mpr h0) h
    rw [hsum, hc k hk]
    split <;> simp

theorem basisInv_measure (M : CMath ℝ ℂ) (hM : M.IsExact) (n k q : Nat) (hk : k < 2 ^ n)
    (hq : q < n) (u : ℝ) (hu0 : 0 < u) (hu1 : u ≤ 1) (st : QuantumState ℂ)
    (h : BasisInv n k st) :
    (measure_qubit M st q u).1 = (if k.testBit q then 1 else 0) ∧
    BasisInv n k (measure_qubit M st q u).2 := by
  obtain ⟨hn, hs, ha⟩ := h
  have hs2 : st.state_size = 2 ^ n := by rw [hs, Nat.one_shiftLeft]
  have hf : k ^^^ 2 ^ q < st.state_size := by rw [hs2]; exact flip_lt n q k hq hk
  have hk' : k < st.state_size := by rw [hs2]; exact hk
  have hshape := measure_qubit_shape M st q u
  cases hb : k.testBit q
  · have hfb : (k ^^^ 2 ^ q).testBit q = true := by rw [testBit_flip, hb]; rfl
    obtain ⟨r1, r2⟩ := measure_two_point M hM st q u k (k ^^^ 2 ^ q) 1 0 hk' hf hb hfb
      (fun i hi => by
        rw [ha i (by rw [← hs2]; exact hi)]
        split <;> simp)
    have hnu : ¬ u > Complex.abs 1 ^ 2 := by simp; exact hu1
    rw [if_neg hnu] at r1
    refine ⟨by simpa using r1, by rw [hshape.1]; exact hn, by rw [hshape.2]; exact hs, ?_⟩
    intro i hi
    rw [r2 i (by rw [hs2]; exact hi), if_neg hnu]
    split <;> simp
  · have hfb : (k ^^^ 2 ^ q).testBit q = false := by rw [testBit_flip, hb]; rfl
    obtain ⟨r1, r2⟩ := measure_two_point M hM st q u (k ^^^ 2 ^ q) k 0 1 hf hk' hfb hb
      (fun i hi => by
        rw [ha i (by rw [← hs2]; exact hi)]
        by_cases h1 : i = k
        · subst h1; simp [flip_ne q i |>.symm]
        · simp [h1])
    have hnu : u > Complex.abs 0 ^ 2 := by simp; exact hu0
    rw [if_pos hnu] at r1
    refine ⟨by simpa using r1, by rw [hshape.1]; exact hn, by rw [hshape.2]; exact hs, ?_⟩
    intro i hi
    rw [r2 i (by rw [hs2]; exact hi), if_pos hnu]
    split <;> simp

theorem basisInv_cnot {C : Type} [Zero C] [One C] (n k c t : Nat) (hct : c ≠ t) (ht : t < n)
    (st : QuantumState C) (h : BasisInv n k st) : BasisInv n k (apply_cnot st c t) := by
  rw [apply_cnot_distinct st n c t h.2.1 hct ht]
  exact h

theorem basisInv_pauli_x {C : Type} [Zero C] [One C] (n k t : Nat) (hn : n ≤ 16) (ht : t < n)
    (st : QuantumState C) (h : BasisInv n k st) :
    BasisInv n (if t = 0 then k ^^^ 1 else k) (apply_pauli_x st t) := by
  obtain ⟨hq, hs, ha⟩ := h
  have hwf : st.WF := ⟨by rw [hq]; exact hn, by rw [hs, hq]⟩
  refine ⟨hq, hs, ?_⟩
  intro i hi
  rw [apply_pauli_x_spec st hwf t (by rw [hq]; exact ht) i, hq]
  by_cases h0 : t = 0
  · subst h0
    rw [if_pos ⟨rfl, hi⟩, ha _ (flip_lt n 0 i ht hi), if_pos rfl]
    have e := flip_eq_iff 0 k i
    simp only [pow_zero] at e ⊢
    by_cases hik : i = k ^^^ 1
    · rw [if_pos hik, if_pos (e.mpr hik)]
    · rw [if_neg hik, if_neg (fun h => hik (e.mp h))]
  · rw [if_neg (fun h => h0 h.1), if_neg h0, ha i hi]

theorem basisInv_create (n : Nat) (hn : n ≤ 16) {C : Type} [Zero C] [One C] :
    ∃ st : QuantumState C, create_quantum_state n = some st ∧ BasisInv n 0 st := by
  have h : ¬ n > MAX_QUBITS := by unfold MAX_QUBITS; omega
  refine ⟨_, by rw [create_quantum_state, if_neg h], rfl, rfl, ?_⟩
  intro i _
  rfl

theorem exact_scale (M : CMath ℝ ℂ) (hM : M.IsExact) :
    M.ofReal (1 / M.sqrt 2) = ((1 / Real.sqrt 2 : ℝ) : ℂ) := by
  obtain ⟨hsqrt, -, -, -, -, hof, -, -⟩ := hM
  rw [hsqrt, hof]

theorem abs_scale_sq : Complex.abs ((1 / Real.sqrt 2 : ℝ) : ℂ) ^ 2 = 1 / 2 := by
  rw [Complex.abs_ofReal, sq_abs, div_pow, one_pow, Real.sq_sqrt (by norm_num)]

theorem scale_div_norm :
    ((1 / Real.sqrt 2 : ℝ) : ℂ) / ((Real.sqrt (1 / 2) : ℝ) : ℂ) = 1 := by
  have hpos : (0 : ℝ) < 1 / Real.sqrt 2 := by positivity
  have e : Real.sqrt (1 / 2) = 1 / Real.sqrt 2 := by
    rw [one_div, Real.sqrt_inv, one_div]
  rw [e]
  exact div_self (by exact_mod_cast hpos.ne')

/-- One iteration of `quantum_random_number` on a basis state whose index has bit `i` clear. -/
theorem basisInv_random_bit (M : CMath ℝ ℂ) (hM : M.IsExact) (n i r : Nat) (hn : n ≤ 16)
    (hi : i < n) (hr : r < 2 ^ n) (hbit : r.testBit i = false) (u : ℝ) (st : QuantumState ℂ)
    (h : BasisInv n r st) :
    (measure_qubit M (apply_hadamard M st i) i u).1 = (if u > 1 / 2 then 1 else 0) ∧
    BasisInv n (if u > 1 / 2 then r ^^^ 2 ^ i else r)
      (measure_qubit M (apply_hadamard M st i) i u).2 := by
  obtain ⟨hq, hs, ha⟩ := h
  have hwf : st.WF := ⟨by rw [hq]; exact hn, by rw [hs, hq]⟩
  have hs2 : (apply_hadamard M st i).state_size = 2 ^ n := by
    show st.state_size = 2 ^ n
    rw [hs, Nat.one_shiftLeft]
  have hf : r ^^^ 2 ^ i < 2 ^ n := flip_lt n i r hi hr
  have hfb : (r ^^^ 2 ^ i).testBit i = true := by rw [testBit_flip, hbit]; rfl
  have hne := flip_ne i r
  have hamp : ∀ k, k < (apply_hadamard M st i).state_size →
      (apply_hadamard M st i).amplitudes k =
        if k = r then ((1 / Real.sqrt 2 : ℝ) : ℂ)
        else if k = r ^^^ 2 ^ i then ((1 / Real.sqrt 2 : ℝ) : ℂ) else 0 := by
    intro k hk
    rw [hs2] at hk
    rw [apply_hadamard_spec M st hwf i (by rw [hq]; exact hi) k (by rw [hq]; exact hk),
      ha k hk, ha _ (flip_lt n i k hi hk), exact_scale M hM]
    have e := flip_eq_iff i r k
    by_cases h1 : k = r
    · subst h1
      simp [hbit, hne]
    · by_cases h2 : k = r ^^^ 2 ^ i
      · subst h2
        simp [hfb, flip_flip, hne]
      · have h3 : ¬ k ^^^ 2 ^ i = r := fun h => h2 (e.mp h)
        simp [h1, h2, h3]
  obtain ⟨r1, r2⟩ := measure_two_point M hM (apply_hadamard M st i) i u r (r ^^^ 2 ^ i) _ _
    (by rw [hs2]; exact hr) (by rw [hs2]; exact hf) hbit hfb hamp
  rw [abs_scale_sq] at r1 r2
  have hshape := measure_qubit_shape M (apply_hadamard M st i) i u
  refine ⟨r1, by rw [hshape.1]; exact hq, by rw [hshape.2]; exact hs, ?_⟩
  intro k hk
  rw [r2 k (by rw [hs2]; exact hk)]
  by_cases hu : u > 1 / 2
  · simp only [if_pos hu, scale_div_norm]
  · simp only [if_neg hu, scale_div_norm]

theorem or_shift_bit (r i : Nat) (hr : r < 2 ^ i) (b : Prop) [Decidable b] :
    r ||| ((if b then 1 else 0) <<< i) = r + (if b then 2 ^ i else 0) ∧
    (if b then r ^^^ 2 ^ i else r) = r + (if b then 2 ^ i else 0) := by
  have hbit : r.testBit i = false := Nat.testBit_eq_false_of_lt hr
  have e : r ||| 2 ^ i = r + 2 ^ i := by
    rw [or_mask, hbit]
    simp only [Bool.false_eq_true, if_false]
    apply Nat.eq_of_testBit_eq
    intro j
    rw [Nat.add_comm]
    rcases Nat.lt_trichotomy j i with h | h | h
    · rw [Nat.testBit_two_pow_add_gt h, testBit_flip_ne i j r (by omega)]
    · subst h
      rw [Nat.testBit_two_pow_add_eq, testBit_flip]
    · have h1 : 2 ^ i + r < 2 ^ j := by
        have : 2 ^ (i + 1) ≤ 2 ^ j := Nat.pow_le_pow_right (by decide) h
        rw [pow_succ] at this
        omega
      rw [Nat.testBit_eq_false_of_lt h1, testBit_flip_ne i j r (by omega),
        Nat.testBit_eq_false_of_lt (by omega)]
  by_cases hb : b
  · simp only [hb, if_true, Nat.shiftLeft_eq, one_mul]
    refine ⟨e, ?_⟩
    rw [← e, or_mask, hbit]
    simp
  · simp [hb]

theorem bits_sum_lt (b : Nat → Prop) [DecidablePred b] (k : Nat) :
    (∑ i in Finset.range k, if b i then 2 ^ i else 0) < 2 ^ k := by
  induction k with
  | zero => simp
  | succ k ih =>
    rw [Finset.sum_range_succ, pow_succ]
    split <;> omega

theorem bits_sum_testBit (b : Nat → Prop) [DecidablePred b] (k i : Nat) (hi : i < k) :
    (∑ j in Finset.range k, if b j then 2 ^ j else 0).testBit i = decide (b i) := by
  induction k with
  | zero => omega
  | succ k ih =>
    have hlt := bits_sum_lt b k
    rw [Finset.sum_range_succ]
    have e := (or_shift_bit _ k hlt (b k)).2
    rw [← e]
    by_cases hik : i = k
    · subst hik
      by_cases hb : b i
      · simp [hb, testBit_flip, Nat.testBit_eq_false_of_lt hlt]
      · simp [hb, Nat.testBit_eq_false_of_lt hlt]
    · have hi' : i < k := by omega
      by_cases hb : b k
      · rw [if_pos hb, testBit_flip_ne k i _ (Ne.symm hik)]
        exact ih hi'
      · rw [if_neg hb]
        exact ih hi'

theorem apply_cnot_same {C : Type} (st : QuantumState C) (n t k : Nat)
    (hs : st.state_size = 1 <<< n) (ht : t < n) :
    (apply_cnot st t t).amplitudes k =
      if k < 2 ^ n then st.amplitudes (k ^^^ 2 ^ t) else st.amplitudes k := by
  rw [apply_cnot_amplitudes, hs, Nat.one_shiftLeft]
  simp only [flip_lt_iff _ t k ht, testBit_flip]
  by_cases hk : k < 2 ^ n <;> cases k.testBit t <;> simp [Xor', hk]

theorem sum_range_flip {R : Type} [AddCommMonoid R] (n t : Nat) (ht : t < n) (h : Nat → R) :
    ∑ k in Finset.range (2 ^ n), h (k ^^^ 2 ^ t) = ∑ k in Finset.range (2 ^ n), h k := by
  refine Finset.sum_nbij' (fun k => k ^^^ 2 ^ t) (fun k => k ^^^ 2 ^ t) ?_ ?_ ?_ ?_ ?_
  · intro k hk
    rw [Finset.mem_range] at hk ⊢
    exact flip_lt n t k ht hk
  · intro k hk
    rw [Finset.mem_range] at hk ⊢
    exact flip_lt n t k ht hk
  · intro k _; exact flip_flip t k
  · intro k _; exact flip_flip t k
  · intro k _; rfl

theorem abs_sq_pair (x y : ℂ) :
    Complex.abs (((1 / Real.sqrt 2 : ℝ) : ℂ) * x + ((1 / Real.sqrt 2 : ℝ) : ℂ) * y) ^ 2 +
      Complex.abs (((1 / Real.sqrt 2 : ℝ) : ℂ) * x - ((1 / Real.sqrt 2 : ℝ) : ℂ) * y) ^ 2 =
    Complex.abs x ^ 2 + Complex.abs y ^ 2 := by
  have h2 : (1 / Real.sqrt 2) * (1 / Real.sqrt 2) = (1 / 2 : ℝ) := by
    have h0 : (Real.sqrt 2 : ℝ) ≠ 0 := by positivity
    field_simp
  simp only [Complex.sq_abs, Complex.normSq_apply, Complex.add_re, Complex.add_im,
    Complex.sub_re, Complex.sub_im, Complex.mul_re, Complex.mul_im, Complex.ofReal_re,
    Complex.ofReal_im, zero_mul, sub_zero, add_zero]
  linear_combination (2 * (x.re * x.re + x.im * x.im + y.re * y.re + y.im * y.im)) * h2

/-- Amplitudes after `measure_qubit` in closed form: the entries whose bit `q` differs from the
returned bit are 0 and the others are divided by the norm of the surviving entries. -/
theorem measure_qubit_amplitudes (M : CMath ℝ ℂ) (hM : M.IsExact) (st : QuantumState ℂ)
    (q : Nat) (u : ℝ) (b : Bool) (hb : decide ((measure_qubit M st q u).1 = 1) = b) (k : Nat) :
    (measure_qubit M st q u).2.amplitudes k =
      if k < st.state_size then
        (if k.testBit q ≠ b then 0 else st.amplitudes k) /
          (Real.sqrt (∑ j in (Finset.range st.state_size).filter (fun j => j.testBit q = b),
            Complex.abs (st.amplitudes j) ^ 2) : ℂ)
      else st.amplitudes k := by
  obtain ⟨hsqrt, -, -, -, habs, hof, -, -⟩ := hM
  have hst := measure_qubit_state M st q u
  rw [hb] at hst
  have hS : (∑ i in Finset.range st.state_size,
      Complex.abs (if i < st.state_size ∧ i.testBit q ≠ b then 0 else st.amplitudes i) *
      Complex.abs (if i < st.state_size ∧ i.testBit q ≠ b then 0 else st.amplitudes i)) =
      ∑ j in (Finset.range st.state_size).filter (fun j => j.testBit q = b),
        Complex.abs (st.amplitudes j) ^ 2 := by
    rw [Finset.sum_filter]
    apply Finset.sum_congr rfl
    intro i hi
    have hi' : i < st.state_size := Finset.mem_range.mp hi
    by_cases hm : i.testBit q = b
    · simp [hm, pow_two]
    · simp [hm, hi']
  rw [hst, normalize_state_amplitudes]
  simp only [habs, hsqrt, hof, hS]
  by_cases hk : k < st.state_size
  · simp [hk]
  · simp [hk]

theorem sum_filter_bit_add (N q : Nat) (g : Nat → ℝ) :
    ∑ j in (Finset.range N).filter (fun j => j.testBit q = false), g j +
      ∑ j in (Finset.range N).filter (fun j => j.testBit q = true), g j =
    ∑ j in Finset.range N, g j := by
  have h := Finset.sum_filter_add_sum_filter_not (Finset.range N)
    (fun j => j.testBit q = false) g
  rw [← h]
  congr 1
  apply Finset.sum_congr
  · ext j
    simp
  · intro _ _; rfl

theorem hadamardAllVec_succ {C : Type} [Field C] (s : C) (n : Nat) (a : Nat → C) :
    hadamardAllVec s (n + 1) a = hadamardVec s n (hadamardAllVec s n a) := by
  unfold hadamardAllVec
  rw [forRange_succ]

theorem hadamardAllVec_zero {C : Type} [Field C] (s : C) (a : Nat → C) :
    hadamardAllVec s 0 a = a := by
  unfold hadamardAllVec
  rw [forRange_zero]

theorem flip_comm (t u k : Nat) : k ^^^ 2 ^ t ^^^ 2 ^ u = k ^^^ 2 ^ u ^^^ 2 ^ t := by
  rw [Nat.xor_assoc, Nat.xor_comm (2 ^ t), ← Nat.xor_assoc]

theorem hadamardVec_invol {C : Type} [Field C] (s : C) (hs : 2 * (s * s) = 1) (t : Nat)
    (a : Nat → C) : hadamardVec s t (hadamardVec s t a) = a := by
  funext k
  unfold hadamardVec
  simp only [flip_flip, testBit_flip]
  cases k.testBit t
  · simp only [Bool.false_eq_true, if_false, Bool.not_false, if_true]
    linear_combination (a k) * hs
  · simp only [if_true, Bool.not_true, Bool.false_eq_true, if_false]
    linear_combination (a k) * hs

theorem hadamardVec_comm {C : Type} [Field C] (s : C) (t u : Nat) (htu : t ≠ u)
    (a : Nat → C) :
    hadamardVec s t (hadamardVec s u a) = hadamardVec s u (hadamardVec s t a) := by
  funext k
  unfold hadamardVec
  simp only [testBit_flip_ne t u k htu, testBit_flip_ne u t k (Ne.symm htu), flip_comm u t k]
  cases k.testBit t <;> cases k.testBit u <;> simp <;> ring

theorem hadamardVec_all_comm {C : Type} [Field C] (s : C) (n t : Nat) (ht : n ≤ t)
    (a : Nat → C) :
    hadamardVec s t (hadamardAllVec s n a) = hadamardAllVec s n (hadamardVec s t a) := by
  induction n with
  | zero => rw [hadamardAllVec_zero, hadamardAllVec_zero]
  | succ n ih =>
    rw [hadamardAllVec_succ, hadamardAllVec_succ, hadamardVec_comm s t n (by omega),
      ih (by omega)]

theorem hadamardAllVec_invol {C : Type} [Field C] (s : C) (hs : 2 * (s * s) = 1) (n : Nat)
    (a : Nat → C) : hadamardAllVec s n (hadamardAllVec s n a) = a := by
  induction n generalizing a with
  | zero => rw [hadamardAllVec_zero, hadamardAllVec_zero]
  | succ n ih =>
    rw [hadamardAllVec_succ, hadamardAllVec_succ, ← hadamardVec_all_comm s n n le_rfl,
      hadamardVec_invol s hs, ih]

theorem hadamardVec_linear {C : Type} [Field C] (s : C) (t : Nat) (a b : Nat → C) (c : C) :
    hadamardVec s t (fun k => a k + c * b k) =
      fun k => hadamardVec s t a k + c * hadamardVec s t b k := by
  funext k
  unfold hadamardVec
  split <;> ring

theorem hadamardAllVec_linear {C : Type} [Field C] (s : C) (n : Nat) (a b : Nat → C) (c : C) :
    hadamardAllVec s n (fun k => a k + c * b k) =
      fun k => hadamardAllVec s n a k + c * hadamardAllVec s n b k := by
  induction n with
  | zero => simp only [hadamardAllVec_zero]
  | succ n ih =>
    rw [hadamardAllVec_succ, ih, hadamardVec_linear, hadamardAllVec_succ, hadamardAllVec_succ]

theorem hadamardAllVec_basis {C : Type} [Field C] (s : C) (n k : Nat) :
    hadamardAllVec s n (fun i => if i = 0 then 1 else 0) k = if k < 2 ^ n then s ^ n else 0 := by
  induction n generalizing k with
  | zero =>
    rw [hadamardAllVec_zero]
    simp only [pow_zero, Nat.lt_one_iff]
  | succ n ih =>
    rw [hadamardAllVec_succ]
    unfold hadamardVec
    rw [ih k, ih (k ^^^ 2 ^ n)]
    cases hb : k.testBit n
    · have hfb : (k ^^^ 2 ^ n).testBit n = true := by rw [testBit_flip, hb]; rfl
      simp only [Bool.false_eq_true, if_false, if_neg (not_lt_of_testBit _ n hfb),
        ← lt_iff_of_clear k n hb]
      split <;> ring
    · simp only [if_true, if_neg (not_lt_of_testBit _ n hb), flip_lt_iff_of_set k n hb]
      split <;> ring

theorem hadamardVec_translate {C : Type} [Field C] (s : C) (t m : Nat) (htm : t ≠ m)
    (a : Nat → C) :
    hadamardVec s t (fun k => a (k ^^^ 2 ^ m)) = fun k => hadamardVec s t a (k ^^^ 2 ^ m) := by
  funext k
  unfold hadamardVec
  simp only [testBit_flip_ne m t k (Ne.symm htm), flip_comm t m k]

theorem hadamardAllVec_translate {C : Type} [Field C] (s : C) (n m : Nat) (hm : n ≤ m)
    (a : Nat → C) :
    hadamardAllVec s n (fun k => a (k ^^^ 2 ^ m)) =
      fun k => hadamardAllVec s n a (k ^^^ 2 ^ m) := by
  induction n with
  | zero => simp only [hadamardAllVec_zero]
  | succ n ih =>
    rw [hadamardAllVec_succ, ih (by omega), hadamardVec_translate s n m (by omega),
      hadamardAllVec_succ]

theorem xor_two_pow_of_lt (r i : Nat) (hr : r < 2 ^ i) : r ^^^ 2 ^ i = r + 2 ^ i := by
  have h := (or_shift_bit r i hr True).2
  simpa using h

theorem hadamardAllVec_at_zero {C : Type} [Field C] (s : C) (n : Nat) (a : Nat → C) :
    hadamardAllVec s n a 0 = s ^ n * ∑ j in Finset.range (2 ^ n), a j := by
  induction n generalizing a with
  | zero => simp [hadamardAllVec_zero]
  | succ n ih =>
    rw [hadamardAllVec_succ]
    have h1 : hadamardVec s n (hadamardAllVec s n a) 0 =
        s * hadamardAllVec s n a 0 + s * hadamardAllVec s n a (0 ^^^ 2 ^ n) := by
      unfold hadamardVec
      simp
    have h2 : hadamardAllVec s n a (0 ^^^ 2 ^ n) =
        hadamardAllVec s n (fun k => a (k ^^^ 2 ^ n)) 0 := by
      rw [hadamardAllVec_translate s n n le_rfl]
    rw [h1, h2, ih a, ih (fun k => a (k ^^^ 2 ^ n))]
    have h3 : ∑ j in Finset.range (2 ^ n), a (j ^^^ 2 ^ n) =
        ∑ j in Finset.range (2 ^ n), a (2 ^ n + j) := by
      apply Finset.sum_congr rfl
      intro j hj
      rw [xor_two_pow_of_lt j n (Finset.mem_range.mp hj), Nat.add_comm]
    have h4 : (2 : Nat) ^ (n + 1) = 2 ^ n + 2 ^ n := by rw [pow_succ]; omega
    rw [h3, h4, Finset.sum_range_add]
    ring

theorem exact_scale_sq (M : CMath ℝ ℂ) (hM : M.IsExact) :
    2 * (M.ofReal (1 / M.sqrt 2) * M.ofReal (1 / M.sqrt 2)) = 1 := by
  rw [exact_scale M hM]
  have h0 : (Real.sqrt 2 : ℝ) ≠ 0 := by positivity
  have h2 : 2 * ((1 / Real.sqrt 2) * (1 / Real.sqrt 2)) = (1 : ℝ) := by
    field_simp
  have := congrArg (fun x : ℝ => (x : ℂ)) h2
  simpa using this

theorem write_neg_zero {C : Type} [Field C] (v : Nat → C) :
    write v 0 (v 0 * -1) = fun k => v k + (-2 * v 0) * (if k = 0 then 1 else 0) := by
  funext k
  rw [write_apply]
  by_cases hk : k = 0
  · subst hk
    rw [if_pos rfl, if_pos rfl]
    ring
  · rw [if_neg hk, if_neg hk]
    ring

/-- The Hadamard / negate index 0 / Hadamard composition on amplitude vectors. -/
theorem diffusion_vec {C : Type} [Field C] (s : C) (hs : 2 * (s * s) = 1) (n : Nat)
    (a : Nat → C) (k : Nat) (hk : k < 2 ^ n) :
    hadamardAllVec s n (write (hadamardAllVec s n a) 0 (hadamardAllVec s n a 0 * -1)) k =
      a k - 2 * (s * s) ^ n * ∑ j in Finset.range (2 ^ n), a j := by
  rw [write_neg_zero, hadamardAllVec_linear]
  simp only
  rw [hadamardAllVec_invol s hs, hadamardAllVec_basis, if_pos hk, hadamardAllVec_at_zero,
    mul_pow]
  ring

theorem apply_pauli_z_amplitudes {C : Type} [Field C] (st : QuantumState C) (t k : Nat) :
    (apply_pauli_z st t).amplitudes k =
      if k < st.state_size ∧ k.testBit t = true then st.amplitudes k * -1
      else st.amplitudes k := by
  unfold apply_pauli_z
  simp only [Nat.one_shiftLeft, ne_eq, and_mask_eq_zero, Bool.not_eq_false]
  exact forRange_pointwise st.state_size (fun i => i.testBit t = true)
    (fun _ x => x * -1) st.amplitudes k

theorem oracleInv_loop {C : Type} [Field C] (c : C) (n m : Nat) (st : QuantumState C)
    (h : OracleInv c n 0 st) :
    OracleInv c n m (forRange m (fun s i => apply_pauli_z s i) st) := by
  refine forRange_induct (fun i s => OracleInv c n i s) m _ _ h ?_
  intro i s _ hs
  obtain ⟨h1, h2, h3⟩ := hs
  refine ⟨h1, h2, ?_⟩
  intro k hk
  rw [apply_pauli_z_amplitudes, h3 k hk, Finset.prod_range_succ, h2, Nat.one_shiftLeft]
  by_cases hb : k.testBit i = true
  · rw [if_pos ⟨hk, hb⟩, if_pos hb]; ring
  · rw [if_neg (fun h => hb h.2), if_neg hb]; ring

theorem sign_prod_flip {C : Type} [Field C] (m k : Nat) (hm : 1 ≤ m) :
    ∏ i in Finset.range m, (if (k ^^^ 2 ^ 0).testBit i then (-1 : C) else 1) =
      -∏ i in Finset.range m, (if k.testBit i then (-1 : C) else 1) := by
  obtain ⟨m, rfl⟩ : ∃ m', m = m' + 1 := ⟨m - 1, by omega⟩
  rw [Finset.prod_range_succ', Finset.prod_range_succ', testBit_flip]
  have e : ∀ i, (k ^^^ 2 ^ 0).testBit (i + 1) = k.testBit (i + 1) :=
    fun i => testBit_flip_ne 0 (i + 1) k (by omega)
  simp only [e]
  cases k.testBit 0 <;> simp

theorem sign_prod_sum_zero (n m : Nat) (hn : 1 ≤ n) (hm : 1 ≤ m) :
    ∑ k in Finset.range (2 ^ n),
      ∏ i in Finset.range m, (if k.testBit i then (-1 : ℂ) else 1) = 0 := by
  have h := sum_range_flip n 0 (by omega)
    (fun k => ∏ i in Finset.range m, (if k.testBit i then (-1 : ℂ) else 1))
  simp only [sign_prod_flip m _ hm, Finset.sum_neg_distrib] at h
  have h2 : (2 : ℂ) * ∑ k in Finset.range (2 ^ n),
      ∏ i in Finset.range m, (if k.testBit i then (-1 : ℂ) else 1) = 0 := by
    linear_combination -h
  rcases mul_eq_zero.mp h2 with h3 | h3
  · exact absurd h3 (by norm_num)
  · exact h3

/-- The bit-flip pipeline as the code runs it: for `j < 3` and draws strictly between 0 and 1,
encoding, `apply_pauli_x(state, j)`, syndrome and recovery on `create_quantum_state(3)` end
with amplitude 1 at index 0. For `j = 1, 2` the call of `apply_pauli_x` changes nothing and
the syndrome is `(0, 0)`, so this does not show that a flip of qubit 1 or 2 is corrected. -/
theorem bit_flip_code_round_trip (M : CMath ℝ ℂ) (hM : M.IsExact) (j : Nat) (hj : j < 3)
    (u1 u2 u3 u4 : ℝ) (h1 : 0 < u1 ∧ u1 < 1) (h2 : 0 < u2 ∧ u2 < 1) (h3 : 0 < u3 ∧ u3 < 1)
    (h4 : 0 < u4 ∧ u4 < 1) (i : Nat) (hi : i < 8) :
    (create_quantum_state 3).map
      (fun st : QuantumState ℂ =>
        (apply_error_correction_recovery
          (apply_error_correction_syndrome M
            (apply_pauli_x (apply_error_correction_encoding st 0) j) 0 u1 u2 u3 u4).2 0
          (apply_error_correction_syndrome M
            (apply_pauli_x (apply_error_correction_encoding st 0) j) 0 u1 u2 u3 u4).1).amplitudes
          i) = some (if i = 0 then 1 else 0) := by
  obtain ⟨st, hst, hb⟩ := basisInv_create 3 (by decide) (C := ℂ)
  rw [hst, Option.map_some']
  congr 1
  have henc : BasisInv 3 0 (apply_error_correction_encoding st 0) := by
    unfold apply_error_correction_encoding
    exact basisInv_cnot 3 0 _ _ (by decide) (by decide) _
      (basisInv_cnot 3 0 _ _ (by decide) (by decide) _ hb)
  have hx := basisInv_pauli_x 3 0 j (by decide) hj _ henc
  unfold apply_error_correction_syndrome apply_error_correction_recovery
  simp only [Nat.zero_mul, Nat.zero_add]
  by_cases hj0 : j = 0
  · subst hj0
    simp only [if_true] at hx
    obtain ⟨a1, b1⟩ := basisInv_measure M hM 3 (0 ^^^ 1) 0 (by decide) (by decide) u1 h1.1 h1.2.le _ hx
    obtain ⟨a2, b2⟩ := basisInv_measure M hM 3 (0 ^^^ 1) 1 (by decide) (by decide) u2 h2.1 h2.2.le _ b1
    obtain ⟨a3, b3⟩ := basisInv_measure M hM 3 (0 ^^^ 1) 0 (by decide) (by decide) u3 h3.1 h3.2.le _ b2
    obtain ⟨a4, b4⟩ := basisInv_measure M hM 3 (0 ^^^ 1) 2 (by decide) (by decide) u4 h4.1 h4.2.le _ b3
    have hr := basisInv_pauli_x 3 (0 ^^^ 1) 0 (by decide) (by decide) _ b4
    rw [a1, a2, a3, a4]
    simp only [show Nat.testBit (0 ^^^ 1) 0 = true by decide,
      show Nat.testBit (0 ^^^ 1) 1 = false by decide,
      show Nat.testBit (0 ^^^ 1) 2 = false by decide, if_true, Bool.false_eq_true, if_false]
    simp only [show (1 ^^^ 0 : Nat) = 1 by decide, one_ne_zero, ne_eq, not_false_eq_true,
      and_false, false_and, and_self, if_true, if_false, not_true_eq_false]
    simp only [if_true] at hr
    exact hr.2.2 i hi
  · simp only [if_neg hj0] at hx
    obtain ⟨a1, b1⟩ := basisInv_measure M hM 3 0 0 (by decide) (by decide) u1 h1.1 h1.2.le _ hx
    obtain ⟨a2, b2⟩ := basisInv_measure M hM 3 0 1 (by decide) (by decide) u2 h2.1 h2.2.le _ b1
    obtain ⟨a3, b3⟩ := basisInv_measure M hM 3 0 0 (by decide) (by decide) u3 h3.1 h3.2.le _ b2
    obtain ⟨a4, b4⟩ := basisInv_measure M hM 3 0 2 (by decide) (by decide) u4 h4.1 h4.2.le _ b3
    rw [a1, a2, a3, a4]
    simp only [Nat.zero_testBit, Bool.false_eq_true, if_false, Nat.xor_self, ne_eq,
      not_true_eq_false, false_and, and_false, and_self]
    exact b4.2.2 i hi

/-- The pipeline above at `j = 0`, all four draws `1/2`, index 0. -/
theorem bit_flip_code_round_trip_witness :
    (create_quantum_state 3).map
      (fun st : QuantumState ℂ =>
        (apply_error_correction_recovery
          (apply_error_correction_syndrome
            (CMath.mk Real.sqrt Real.cos Real.sin (fun x y => Real.rpow x y)
              (fun z => Complex.abs z) (fun x : ℝ => (x : ℂ)) Complex.I
              (fun x => if 0 ≤ x then Int.floor x else Int.ceil x))
            (apply_pauli_x (apply_error_correction_encoding st 0) 0) 0
              (1 / 2) (1 / 2) (1 / 2) (1 / 2)).2 0
          (apply_error_correction_syndrome
            (CMath.mk Real.sqrt Real.cos Real.sin (fun x y => Real.rpow x y)
              (fun z => Complex.abs z) (fun x : ℝ => (x : ℂ)) Complex.I
              (fun x => if 0 ≤ x then Int.floor x else Int.ceil x))
            (apply_pauli_x (apply_error_correction_encoding st 0) 0) 0
              (1 / 2) (1 / 2) (1 / 2) (1 / 2)).1).amplitudes
          0) = some (if 0 = 0 then 1 else 0) :=
  bit_flip_code_round_trip _ ⟨rfl, rfl, rfl, rfl, rfl, rfl, rfl, rfl⟩ 0 (by decide)
    (1 / 2) (1 / 2) (1 / 2) (1 / 2) (by norm_num) (by norm_num) (by norm_num) (by norm_num)
    0 (by decide)

/-! ## The claims -/

/-- Claim C1 (`apply_hadamard`): in a state of `n` qubits, for a target `t < n` and an index
`i0 < 2 ^ n` whose bit `t` is 0, with `i1 = i0 | (1 << t)`, the call leaves
`(old[i0] + old[i1]) / sqrt 2` at `i0` and `(old[i0] - old[i1]) / sqrt 2` at `i1`, the amplitudes
being exact complex numbers. -/
theorem apply_hadamard_pair (M : CMath ℝ ℂ) (hM : M.IsExact) (st : QuantumState ℂ)
    (hwf : st.WF) (t i0 : Nat) (ht : t < st.num_qubits) (hi0 : i0 < 2 ^ st.num_qubits)
    (hbit : i0.testBit t = false) :
    (apply_hadamard M st t).amplitudes i0
        = (st.amplitudes i0 + st.amplitudes (i0 ||| 1 <<< t)) / (Real.sqrt 2 : ℂ) ∧
    (apply_hadamard M st t).amplitudes (i0 ||| 1 <<< t)
        = (st.amplitudes i0 - st.amplitudes (i0 ||| 1 <<< t)) / (Real.sqrt 2 : ℂ) := by
  obtain ⟨hsqrt, -, -, -, -, hof, -, -⟩ := hM
  have h1 : i0 ||| 1 <<< t = i0 ^^^ 2 ^ t := by
    rw [Nat.one_shiftLeft, or_mask, hbit]; simp
  have hi1 : i0 ^^^ 2 ^ t < 2 ^ st.num_qubits := flip_lt _ t i0 ht hi0
  have hb1 : (i0 ^^^ 2 ^ t).testBit t = true := by rw [testBit_flip, hbit]; rfl
  rw [h1, apply_hadamard_spec M st hwf t ht i0 hi0, apply_hadamard_spec M st hwf t ht _ hi1,
    hbit, hb1, flip_flip, hsqrt, hof]
  simp only [Bool.false_eq_true, if_false, if_true]
  constructor <;> · push_cast; ring

/-- Claim C1 at the one-qubit state `|0>`, target 0, index 0. -/
theorem apply_hadamard_pair_witness :
    (apply_hadamard (CMath.mk Real.sqrt Real.cos Real.sin (fun x y => Real.rpow x y)
        (fun z => Complex.abs z) (fun x : ℝ => (x : ℂ)) Complex.I
        (fun x => if 0 ≤ x then Int.floor x else Int.ceil x))
      (QuantumState.mk 1 2 (write (fun _ => (0 : ℂ)) 0 1)) 0).amplitudes 0
        = (write (fun _ => (0 : ℂ)) 0 1 0 + write (fun _ => (0 : ℂ)) 0 1 (0 ||| 1 <<< 0))
            / (Real.sqrt 2 : ℂ) ∧
    (apply_hadamard (CMath.mk Real.sqrt Real.cos Real.sin (fun x y => Real.rpow x y)
        (fun z => Complex.abs z) (fun x : ℝ => (x : ℂ)) Complex.I
        (fun x => if 0 ≤ x then Int.floor x else Int.ceil x))
      (QuantumState.mk 1 2 (write (fun _ => (0 : ℂ)) 0 1)) 0).amplitudes (0 ||| 1 <<< 0)
        = (write (fun _ => (0 : ℂ)) 0 1 0 - write (fun _ => (0 : ℂ)) 0 1 (0 ||| 1 <<< 0))
            / (Real.sqrt 2 : ℂ) :=
  apply_hadamard_pair _ ⟨rfl, rfl, rfl, rfl, rfl, rfl, rfl, rfl⟩ _ ⟨by decide, rfl⟩ 0 0
    (by decide) (by decide) (by decide)

/-- Claim C2 (`apply_cnot`) at its failing input: on two qubits with amplitude 1 at index 1,
control 0 and target 1, index 3 has its control bit set and its partner `3 ^ (1 << 1) = 1` held
amplitude 1, yet the call leaves amplitude 0 at index 3: the pair is exchanged twice. -/
theorem apply_cnot_two_qubits_unchanged :
    (apply_cnot (QuantumState.mk 2 4 (write (fun _ => (0 : ℂ)) 1 1)) 0 1).amplitudes 3 = 0 ∧
    (write (fun _ => (0 : ℂ)) 1 1) (3 ^^^ 1 <<< 1) = 1 ∧ Nat.testBit 3 0 = true := by
  refine ⟨?_, ?_, by decide⟩
  · simp [apply_cnot, forRange, List.range_succ, write]
  · simp [write]

/-- Claim C3 (`apply_pauli_x`) at its failing input `n = 2`, `t = 1`: on the state with
amplitude 1 at index 0 the partner of index 2 held amplitude 1, yet the call leaves amplitude 0
at index 2: the loop over even indices exchanges the pair `(0, 2)` twice. -/
theorem apply_pauli_x_target_one_unchanged :
    (apply_pauli_x (QuantumState.mk 2 4 (write (fun _ => (0 : ℂ)) 0 1)) 1).amplitudes 2 = 0 ∧
    (write (fun _ => (0 : ℂ)) 0 1) (2 ^^^ 1 <<< 1) = 1 := by
  constructor
  · simp [apply_pauli_x, forRangeStep2, List.range', write]
  · simp [write]

/-- Claim C4 (`measure_qubit`, returned bit): with the random draw `u` as an argument, the
call returns 1 when `u > prob0` and 0 otherwise, where `prob0` is the sum of the squared
magnitudes of the amplitudes, before the collapse, at the indices whose bit `q` is 0. -/
theorem measure_qubit_result (M : CMath ℝ ℂ) (hM : M.IsExact) (st : QuantumState ℂ)
    (q : Nat) (u : ℝ) :
    (measure_qubit M st q u).1 =
      if u > ∑ i in (Finset.range st.state_size).filter (fun i => i.testBit q = false),
            Complex.abs (st.amplitudes i) ^ 2
      then 1 else 0 := by
  obtain ⟨-, -, -, -, habs, -, -, -⟩ := hM
  unfold measure_qubit
  simp only [Nat.one_shiftLeft, and_mask_eq_zero]
  rw [forRange_sum_filter st.state_size (fun i => i.testBit q = false)
    (fun i => M.cabs (st.amplitudes i) * M.cabs (st.amplitudes i))]
  simp only [habs, pow_two]

/-- Claim C4 at the one-qubit state `|0>`, qubit 0 and draw `1/2`. -/
theorem measure_qubit_result_witness :
    (measure_qubit
        (CMath.mk Real.sqrt Real.cos Real.sin (fun x y => Real.rpow x y)
          (fun z => Complex.abs z) (fun x : ℝ => (x : ℂ)) Complex.I
          (fun x => if 0 ≤ x then Int.floor x else Int.ceil x))
        (QuantumState.mk 1 2 (write (fun _ => (0 : ℂ)) 0 1)) 0 (1 / 2)).1 =
      if (1 / 2 : ℝ) > ∑ i in (Finset.range 2).filter (fun i => i.testBit 0 = false),
            Complex.abs (write (fun _ => (0 : ℂ)) 0 1 i) ^ 2
      then 1 else 0 :=
  measure_qubit_result _ ⟨rfl, rfl, rfl, rfl, rfl, rfl, rfl, rfl⟩ _ 0 (1 / 2)

/-- Claim C5 (`measure_qubit`, collapse): when some amplitude consistent with the returned
bit `b` is not zero, after the call every amplitude at an index whose bit `q` differs from `b`
is 0, every amplitude at an index whose bit `q` equals `b` is its old value divided by the
square root of the sum of the squared magnitudes of the surviving amplitudes, and the squared
magnitudes of the whole vector sum to 1. The state need not have unit norm. -/
theorem measure_qubit_collapse (M : CMath ℝ ℂ) (hM : M.IsExact) (st : QuantumState ℂ)
    (q : Nat) (u : ℝ)
    (hsurv : ∃ i, i < st.state_size ∧
      i.testBit q = decide ((measure_qubit M st q u).1 = 1) ∧ st.amplitudes i ≠ 0) :
    (∀ i, i < st.state_size → i.testBit q ≠ decide ((measure_qubit M st q u).1 = 1) →
      (measure_qubit M st q u).2.amplitudes i = 0) ∧
    (∀ i, i < st.state_size → i.testBit q = decide ((measure_qubit M st q u).1 = 1) →
      (measure_qubit M st q u).2.amplitudes i =
        st.amplitudes i /
          (Real.sqrt (∑ j in (Finset.range st.state_size).filter
            (fun j => j.testBit q = decide ((measure_qubit M st q u).1 = 1)),
              Complex.abs (st.amplitudes j) ^ 2) : ℂ)) ∧
    ∑ i in Finset.range st.state_size,
      Complex.abs ((measure_qubit M st q u).2.amplitudes i) ^ 2 = 1 := by
  obtain ⟨hsqrt, -, -, -, habs, hof, -, -⟩ := hM
  generalize hb : decide ((measure_qubit M st q u).1 = 1) = b at hsurv ⊢
  have hst := measure_qubit_state M st q u
  rw [hb] at hst
  -- the norm computed by `normalize_state` is the sum over the surviving indices
  have hS : (∑ i in Finset.range st.state_size,
      Complex.abs (if i < st.state_size ∧ i.testBit q ≠ b then 0 else st.amplitudes i) *
      Complex.abs (if i < st.state_size ∧ i.testBit q ≠ b then 0 else st.amplitudes i)) =
      ∑ j in (Finset.range st.state_size).filter (fun j => j.testBit q = b),
        Complex.abs (st.amplitudes j) ^ 2 := by
    rw [Finset.sum_filter]
    apply Finset.sum_congr rfl
    intro i hi
    have hi' : i < st.state_size := Finset.mem_range.mp hi
    by_cases hm : i.testBit q = b
    · simp [hm, pow_two]
    · simp [hm, hi']
  have hamp : ∀ k, (measure_qubit M st q u).2.amplitudes k =
      if k < st.state_size then
        (if k.testBit q ≠ b then 0 else st.amplitudes k) /
          (Real.sqrt (∑ j in (Finset.range st.state_size).filter (fun j => j.testBit q = b),
            Complex.abs (st.amplitudes j) ^ 2) : ℂ)
      else st.amplitudes k := by
    intro k
    rw [hst, normalize_state_amplitudes]
    simp only [habs, hsqrt, hof, hS]
    by_cases hk : k < st.state_size
    · simp [hk]
    · simp [hk]
  set S := ∑ j in (Finset.range st.state_size).filter (fun j => j.testBit q = b),
            Complex.abs (st.amplitudes j) ^ 2 with hSdef
  have hSpos : 0 < S := by
    obtain ⟨i, hi, hbi, hne⟩ := hsurv
    have hmem : i ∈ (Finset.range st.state_size).filter (fun j => j.testBit q = b) := by
      simp [hi, hbi]
    have hle : Complex.abs (st.amplitudes i) ^ 2 ≤ S :=
      Finset.single_le_sum (f := fun j => Complex.abs (st.amplitudes j) ^ 2)
        (fun j _ => by positivity) hmem
    have hpos : 0 < Complex.abs (st.amplitudes i) ^ 2 := by
      have := (AbsoluteValue.pos_iff Complex.abs).mpr hne
      positivity
    linarith
  refine ⟨?_, ?_, ?_⟩
  · intro i hi hbit
    rw [hamp, if_pos hi, if_pos hbit, zero_div]
  · intro i hi hbit
    rw [hamp, if_pos hi, if_neg (by simpa using hbit)]
  · have hterm : ∀ i ∈ Finset.range st.state_size,
        Complex.abs ((measure_qubit M st q u).2.amplitudes i) ^ 2 =
          (if i.testBit q = b then Complex.abs (st.amplitudes i) ^ 2 else 0) / S := by
      intro i hi
      have hi' : i < st.state_size := Finset.mem_range.mp hi
      rw [hamp, if_pos hi', map_div₀, Complex.abs_ofReal, abs_of_nonneg (Real.sqrt_nonneg _),
        div_pow, Real.sq_sqrt hSpos.le]
      by_cases hm : i.testBit q = b
      · simp [hm]
      · simp [hm]
    rw [Finset.sum_congr rfl hterm, ← Finset.sum_div, ← Finset.sum_filter]
    exact div_self hSpos.ne'

/-- Claim C5 at the one-qubit state `|0>`, qubit 0 and draw 0: the norm after the call. -/
theorem measure_qubit_collapse_witness :
    ∑ i in Finset.range 2,
      Complex.abs ((measure_qubit
        (CMath.mk Real.sqrt Real.cos Real.sin (fun x y => Real.rpow x y)
          (fun z => Complex.abs z) (fun x : ℝ => (x : ℂ)) Complex.I
          (fun x => if 0 ≤ x then Int.floor x else Int.ceil x))
        (QuantumState.mk 1 2 (write (fun _ => (0 : ℂ)) 0 1)) 0 0).2.amplitudes i) ^ 2 = 1 :=
  (measure_qubit_collapse _ ⟨rfl, rfl, rfl, rfl, rfl, rfl, rfl, rfl⟩
    (QuantumState.mk 1 2 (write (fun _ => (0 : ℂ)) 0 1)) 0 0
    ⟨0, by decide, by
      simp [measure_qubit, forRange, List.range_succ, write], by simp [write]⟩).2.2

/-- Claim C6 (norm invariant over gate sequences) at its failing input: the one-gate
sequence `apply_pauli_y(state, 0)` on `create_quantum_state(1)` ends in a vector whose squared
magnitudes sum to 0, not 1. -/
theorem apply_pauli_y_breaks_norm :
    (create_quantum_state 1 : Option (QuantumState ℂ)) =
      some (QuantumState.mk 1 2 (write (fun _ => (0 : ℂ)) 0 1)) ∧
    ∑ i in Finset.range 2,
      Complex.abs ((apply_pauli_y
        (CMath.mk Real.sqrt Real.cos Real.sin (fun x y => Real.rpow x y)
          (fun z => Complex.abs z) (fun x : ℝ => (x : ℂ)) Complex.I
          (fun x => if 0 ≤ x then Int.floor x else Int.ceil x))
        (QuantumState.mk 1 2 (write (fun _ => (0 : ℂ)) 0 1)) 0).amplitudes i) ^ 2 = 0 := by
  constructor
  · rfl
  · simp [apply_pauli_y, forRange, List.range_succ, write, Finset.sum_range_succ]

/-- Claim C7 (`create_quantum_state`, initial state): for `n <= 16` the call returns a state
with `num_qubits = n`, `state_size = 2 ^ n`, amplitude 1 at index 0 and amplitude 0 at every
other index, and the squared magnitudes of these `2 ^ n` amplitudes sum to 1. -/
theorem create_quantum_state_initial (n : Nat) (hn : n ≤ 16) :
    (create_quantum_state n : Option (QuantumState ℂ)) =
      some { num_qubits := n, state_size := 2 ^ n,
             amplitudes := (fun i => if i = 0 then 1 else 0) } ∧
    ∑ i in Finset.range (2 ^ n), Complex.abs ((if i = 0 then 1 else 0 : ℂ)) ^ 2 = 1 := by
  have h : ¬ n > MAX_QUBITS := by unfold MAX_QUBITS; omega
  constructor
  · rw [create_quantum_state, if_neg h, Nat.one_shiftLeft]
    rfl
  · rw [Finset.sum_eq_single 0]
    · simp
    · intro i _ hi
      simp [hi]
    · intro h0
      exact absurd (Finset.mem_range.mpr (by positivity)) h0

/-- Claim C7 at `n = 2`. -/
theorem create_quantum_state_initial_witness :
    (create_quantum_state 2 : Option (QuantumState ℂ)) =
      some { num_qubits := 2, state_size := 2 ^ 2,
             amplitudes := (fun i => if i = 0 then 1 else 0) } ∧
    ∑ i in Finset.range (2 ^ 2), Complex.abs ((if i = 0 then 1 else 0 : ℂ)) ^ 2 = 1 :=
  create_quantum_state_initial 2 (by decide)

/-- Claim C8 (`create_quantum_state`, error): for every `n >= 0` the call returns the null
result exactly when `n > 16`, and returns a state exactly when `n <= 16`. -/
theorem create_quantum_state_error {C : Type} [Zero C] [One C] (n : Nat) :
    ((create_quantum_state n : Option (QuantumState C)) = none ↔ n > 16) ∧
    ((create_quantum_state n : Option (QuantumState C)).isSome = true ↔ n ≤ 16) := by
  unfold create_quantum_state MAX_QUBITS
  by_cases h : n > 16
  · simp [h]
  · simp [h]
    omega

/-- Claim C9 (Grover on three qubits): for every marked index `m < 8`, on
`create_quantum_state(3)` the iteration count `(int)(PI / 4 * sqrt(8))` is 2, `grover_search` is
the Hadamard layer followed by two oracle-and-diffusion rounds, and the squared magnitude of
the resulting amplitude at `m` is `121 / 128`, which is at least `0.9`. -/
theorem grover_search_three_qubits (M : CMath ℝ ℂ) (hM : M.IsExact) (m : Nat) (hm : m < 8) :
    (create_quantum_state 3).map
        (fun st : QuantumState ℂ => M.toInt (PI / 4 * M.sqrt (st.state_size : ℝ))) = some 2 ∧
    (create_quantum_state 3).map (fun st : QuantumState ℂ => grover_search M st m) =
      (create_quantum_state 3).map (fun st : QuantumState ℂ =>
        forRange 2 (fun s _ => grover_diffusion M (grover_oracle s m))
          (forRange st.num_qubits (fun s i => apply_hadamard M s i) st)) ∧
    (create_quantum_state 3).map
        (fun st : QuantumState ℂ => Complex.abs ((grover_search M st m).amplitudes m) ^ 2) =
      some (121 / 128) ∧
    (9 / 10 : ℝ) ≤ 121 / 128 := by
  have hc : (create_quantum_state 3 : Option (QuantumState ℂ)) =
      some { num_qubits := 3, state_size := 1 <<< 3, amplitudes := write (fun _ => 0) 0 1 } := by
    rw [create_quantum_state, if_neg (by decide)]
  have hit := grover_iterations_eight M hM
  have hinit := groverInv_init M m
  have hsearch : grover_search M
      ({ num_qubits := 3, state_size := 1 <<< 3, amplitudes := write (fun _ => 0) 0 1 } :
        QuantumState ℂ) m =
      forRange 2 (fun s _ => grover_diffusion M (grover_oracle s m))
        (forRange 3 (fun s i => apply_hadamard M s i)
          ({ num_qubits := 3, state_size := 1 <<< 3, amplitudes := write (fun _ => 0) 0 1 } :
            QuantumState ℂ)) := by
    unfold grover_search
    simp only
    rw [hinit.2.1]
    have : ((1 <<< 3 : Nat) : ℝ) = ((8 : Nat) : ℝ) := by
      have e : (1 <<< 3 : Nat) = 8 := by decide
      rw [e]
    rw [this, hit]
    rfl
  have hfin := groverInv_two_steps M (exact_scale_pow_six M hM) m hm _ _ hinit
  refine ⟨?_, ?_, ?_, by norm_num⟩
  · rw [hc, Option.map_some']
    have : ((1 <<< 3 : Nat) : ℝ) = ((8 : Nat) : ℝ) := by
      have e : (1 <<< 3 : Nat) = 8 := by decide
      rw [e]
    simp only [this, hit]
  · rw [hc, Option.map_some', Option.map_some', hsearch]
  · rw [hc, Option.map_some', hsearch, hfin.2.2 m hm, if_pos rfl]
    congr 1
    have h6 := exact_scale_pow_six M hM
    have h3 : Complex.abs (M.ofReal (1 / M.sqrt 2) ^ 3) ^ 2 = 1 / 8 := by
      rw [← map_pow, ← pow_mul, show 3 * 2 = 6 from rfl, h6]
      simp
    rw [map_mul, mul_pow, h3]
    simp only [map_div₀, Complex.abs_ofNat]
    norm_num

/-- Claim C9 at the marked index 5: the squared magnitude at index 5. -/
theorem grover_search_three_qubits_witness :
    (create_quantum_state 3).map
        (fun st : QuantumState ℂ => Complex.abs ((grover_search
          (CMath.mk Real.sqrt Real.cos Real.sin (fun x y => Real.rpow x y)
            (fun z => Complex.abs z) (fun x : ℝ => (x : ℂ)) Complex.I
            (fun x => if 0 ≤ x then Int.floor x else Int.ceil x)) st 5).amplitudes 5) ^ 2) =
      some (121 / 128) :=
  (grover_search_three_qubits _ ⟨rfl, rfl, rfl, rfl, rfl, rfl, rfl, rfl⟩ 5 (by decide)).2.2.1

/-- Claim C10 (QFT of the zero state): for `n <= 16`, `quantum_fourier_transform` applied to
`create_quantum_state(n)` leaves the real number `1 / sqrt (2 ^ n)` at every index below
`2 ^ n`. -/
theorem qft_zero_state (M : CMath ℝ ℂ) (hM : M.IsExact) (n : Nat) (hn : n ≤ 16) (k : Nat)
    (hk : k < 2 ^ n) :
    (create_quantum_state n).map (fun st => (quantum_fourier_transform M st).amplitudes k) =
      some (((1 / Real.sqrt (2 ^ n) : ℝ)) : ℂ) := by
  obtain ⟨hsqrt, -, -, -, -, hof, -, -⟩ := hM
  rw [qft_zero_state_generic M n hn k hk, hsqrt, hof]
  congr 1
  have h2 : Real.sqrt (2 ^ n) = Real.sqrt 2 ^ n := by
    rw [Real.sqrt_eq_iff_mul_self_eq (by positivity) (by positivity), ← mul_pow,
      Real.mul_self_sqrt (by norm_num)]
  rw [h2]
  push_cast
  rw [one_div, one_div, inv_pow]

/-- Claim C10 at `n = 2`, index 3. -/
theorem qft_zero_state_witness :
    (create_quantum_state 2).map (fun st => (quantum_fourier_transform
        (CMath.mk Real.sqrt Real.cos Real.sin (fun x y => Real.rpow x y)
          (fun z => Complex.abs z) (fun x : ℝ => (x : ℂ)) Complex.I
          (fun x => if 0 ≤ x then Int.floor x else Int.ceil x)) st).amplitudes 3) =
      some (((1 / Real.sqrt (2 ^ 2) : ℝ)) : ℂ) :=
  qft_zero_state _ ⟨rfl, rfl, rfl, rfl, rfl, rfl, rfl, rfl⟩ 2 (by decide) 3 (by decide)

/-- Claim C12 (`quantum_random_number`): for `n <= 16` and `k <= n`, on
`create_quantum_state(n)` with the draw `u i` supplied to the measurement of iteration `i`, the
result is the sum of `2 ^ i` over the `i < k` with `u i > 1/2`; this integer is below `2 ^ k`
and its bit `i` is 1 exactly when `u i > 1/2`. -/
theorem quantum_random_number_bits (M : CMath ℝ ℂ) (hM : M.IsExact) (n k : Nat) (hn : n ≤ 16)
    (hk : k ≤ n) (u : Nat → ℝ) :
    (create_quantum_state n).map
        (fun st : QuantumState ℂ => (quantum_random_number M st k u).1) =
      some (∑ i in Finset.range k, if u i > 1 / 2 then 2 ^ i else 0) ∧
    (∑ i in Finset.range k, if u i > 1 / 2 then 2 ^ i else 0) < 2 ^ k ∧
    ∀ i, i < k →
      (∑ j in Finset.range k, if u j > 1 / 2 then 2 ^ j else 0).testBit i =
        decide (u i > 1 / 2) := by
  refine ⟨?_, bits_sum_lt _ k, fun i hi => bits_sum_testBit _ k i hi⟩
  obtain ⟨st, hst, hb⟩ := basisInv_create n hn (C := ℂ)
  rw [hst, Option.map_some']
  congr 1
  unfold quantum_random_number
  have key := forRange_induct
    (fun i (acc : Nat × QuantumState ℂ) =>
      acc.1 = (∑ j in Finset.range i, if u j > 1 / 2 then 2 ^ j else 0) ∧
      BasisInv n acc.1 acc.2) k
    (fun (acc : Nat × QuantumState ℂ) i =>
      let s1 := apply_hadamard M acc.2 i
      let m := measure_qubit M s1 i (u i)
      (acc.1 ||| (m.1 <<< i), m.2))
    (0, st) ⟨by simp, hb⟩
    (fun i acc hi hacc => by
      obtain ⟨h1, h2⟩ := hacc
      have hlt : acc.1 < 2 ^ i := by rw [h1]; exact bits_sum_lt _ i
      have hltn : acc.1 < 2 ^ n :=
        lt_of_lt_of_le hlt (Nat.pow_le_pow_right (by decide) (by omega))
      obtain ⟨r1, r2⟩ := basisInv_random_bit M hM n i acc.1 hn (by omega) hltn
        (Nat.testBit_eq_false_of_lt hlt) (u i) acc.2 h2
      obtain ⟨e1, e2⟩ := or_shift_bit acc.1 i hlt (u i > 1 / 2)
      simp only
      rw [r1, e1]
      refine ⟨?_, ?_⟩
      · rw [Finset.sum_range_succ, h1]
      · rw [← e2]; exact r2)
  exact key.1

/-- Claim C12 at `n = k = 4` with every draw equal to `3/4`. -/
theorem quantum_random_number_bits_witness :
    (create_quantum_state 4).map
        (fun st : QuantumState ℂ => (quantum_random_number
          (CMath.mk Real.sqrt Real.cos Real.sin (fun x y => Real.rpow x y)
            (fun z => Complex.abs z) (fun x : ℝ => (x : ℂ)) Complex.I
            (fun x => if 0 ≤ x then Int.floor x else Int.ceil x))
          st 4 (fun _ => 3 / 4)).1) =
      some (∑ i in Finset.range 4, if (fun _ : Nat => (3 / 4 : ℝ)) i > 1 / 2 then 2 ^ i else 0) :=
  (quantum_random_number_bits _ ⟨rfl, rfl, rfl, rfl, rfl, rfl, rfl, rfl⟩ 4 4 (by decide)
    (by decide) (fun _ => 3 / 4)).1

/-- Claim C13 as stated fails at the draw `u = 0`: on the one-qubit state with amplitude 1 at
index 1, `measure_qubit` on qubit 0 does not return bit 0 of the index. -/
theorem measure_qubit_basis_draw_zero :
    (measure_qubit
        (CMath.mk Real.sqrt Real.cos Real.sin (fun x y => Real.rpow x y)
          (fun z => Complex.abs z) (fun x : ℝ => (x : ℂ)) Complex.I
          (fun x => if 0 ≤ x then Int.floor x else Int.ceil x))
        (QuantumState.mk 1 (2 ^ 1) (write (fun _ => (0 : ℂ)) 1 1)) 0 0).1 ≠
      (if Nat.testBit 1 0 then 1 else 0) ∧
    (0 : ℝ) ≤ 0 ∧ (0 : ℝ) < 1 ∧ 1 < 2 ^ 1 ∧ 0 < 1 := by
  refine ⟨?_, le_refl _, by norm_num, by decide, by decide⟩
  simp [measure_qubit, forRange, List.range_succ, write]

/-- Claim C13, amended (measurement of a deterministic state): for a basis index `k < 2 ^ n`,
a qubit `q < n` and a draw `u` with `0 < u < 1`, `measure_qubit` on the state with amplitude
1 at index `k` and 0 elsewhere returns bit `q` of `k`. -/
theorem measure_qubit_basis (M : CMath ℝ ℂ) (hM : M.IsExact) (n k q : Nat)
    (hk : k < 2 ^ n) (hq : q < n) (u : ℝ) (hu0 : 0 < u) (hu1 : u < 1) :
    (measure_qubit M (QuantumState.mk n (2 ^ n) (write (fun _ => (0 : ℂ)) k 1)) q u).1 =
      if k.testBit q then 1 else 0 :=
  (basisInv_measure M hM n k q hk hq u hu0 hu1.le _
    ⟨rfl, (Nat.one_shiftLeft n).symm, fun _ _ => rfl⟩).1

/-- Claim C13, amended, at `n = 2`, `k = 2`, `q = 1` and draw `1/3`. -/
theorem measure_qubit_basis_witness :
    (measure_qubit
        (CMath.mk Real.sqrt Real.cos Real.sin (fun x y => Real.rpow x y)
          (fun z => Complex.abs z) (fun x : ℝ => (x : ℂ)) Complex.I
          (fun x => if 0 ≤ x then Int.floor x else Int.ceil x))
        (QuantumState.mk 2 (2 ^ 2) (write (fun _ => (0 : ℂ)) 2 1)) 1 (1 / 3)).1 =
      if Nat.testBit 2 1 then 1 else 0 :=
  measure_qubit_basis _ ⟨rfl, rfl, rfl, rfl, rfl, rfl, rfl, rfl⟩ 2 2 1 (by decide)
    (by decide) (1 / 3) (by norm_num) (by norm_num)

/-- Claim C14 (`apply_pauli_y`) at its failing input: on the one-qubit state `|0>` with
target 0, index 1 has its target bit set and `-I * old[1 ^ 1] = -I`, which is not 0, yet the
call leaves amplitude 0 at index 1: the second store reads the entry the first store wrote. -/
theorem apply_pauli_y_second_store :
    (apply_pauli_y
        (CMath.mk Real.sqrt Real.cos Real.sin (fun x y => Real.rpow x y)
          (fun z => Complex.abs z) (fun x : ℝ => (x : ℂ)) Complex.I
          (fun x => if 0 ≤ x then Int.floor x else Int.ceil x))
        (QuantumState.mk 1 2 (write (fun _ => (0 : ℂ)) 0 1)) 0).amplitudes 1 = 0 ∧
    -Complex.I * (write (fun _ => (0 : ℂ)) 0 1) (1 ^^^ 1 <<< 0) = -Complex.I ∧
    Nat.testBit 1 0 = true ∧ -Complex.I ≠ 0 := by
  refine ⟨?_, ?_, by decide, ?_⟩
  · simp [apply_pauli_y, forRange, List.range_succ, write]
  · simp [write]
  · simp

/-- Claim C15 (`apply_swap`) at its failing input: on two qubits with amplitude 1 at index 1
and qubits 0 and 1, index 2 has its two bits different and its partner `2 ^ 1 ^ 2 = 1` held
amplitude 1, yet the call leaves amplitude 0 at index 2: the pair is exchanged twice. -/
theorem apply_swap_two_qubits_unchanged :
    (apply_swap (QuantumState.mk 2 4 (write (fun _ => (0 : ℂ)) 1 1)) 0 1).amplitudes 2 = 0 ∧
    (write (fun _ => (0 : ℂ)) 1 1) (2 ^^^ 1 <<< 0 ^^^ 1 <<< 1) = 1 := by
  constructor
  · simp [apply_swap, forRange, List.range_succ, write]
  · simp [write]

/-- Claim C16 (`apply_rotation_y`) at its failing input: on the one-qubit state `|0>` with
target 0 and angle `pi` the half-angle mixing gives `(0, 1)`, yet the call leaves `(-1, 0)`:
the loop visits both indices of the pair and mixes it twice. -/
theorem apply_rotation_y_full_angle :
    (apply_rotation_y
        (CMath.mk Real.sqrt Real.cos Real.sin (fun x y => Real.rpow x y)
          (fun z => Complex.abs z) (fun x : ℝ => (x : ℂ)) Complex.I
          (fun x => if 0 ≤ x then Int.floor x else Int.ceil x))
        (QuantumState.mk 1 2 (write (fun _ => (0 : ℂ)) 0 1)) 0 Real.pi).amplitudes 0 = -1 ∧
    (apply_rotation_y
        (CMath.mk Real.sqrt Real.cos Real.sin (fun x y => Real.rpow x y)
          (fun z => Complex.abs z) (fun x : ℝ => (x : ℂ)) Complex.I
          (fun x => if 0 ≤ x then Int.floor x else Int.ceil x))
        (QuantumState.mk 1 2 (write (fun _ => (0 : ℂ)) 0 1)) 0 Real.pi).amplitudes 1 = 0 ∧
    ((Real.cos (Real.pi / 2) : ℝ) : ℂ) * (write (fun _ => (0 : ℂ)) 0 1) 0
      - ((Real.sin (Real.pi / 2) : ℝ) : ℂ) * (write (fun _ => (0 : ℂ)) 0 1) (0 ||| 1 <<< 0) = 0 ∧
    ((Real.sin (Real.pi / 2) : ℝ) : ℂ) * (write (fun _ => (0 : ℂ)) 0 1) 0
      + ((Real.cos (Real.pi / 2) : ℝ) : ℂ) * (write (fun _ => (0 : ℂ)) 0 1) (0 ||| 1 <<< 0) = 1 := by
  refine ⟨?_, ?_, ?_, ?_⟩
  · simp [apply_rotation_y, forRange, List.range_succ, write, bnot32]
  · simp [apply_rotation_y, forRange, List.range_succ, write, bnot32]
  · simp [write]
  · simp [write]

/-- Claim C17 (`apply_toffoli`) at its failing input: on three qubits with amplitude 1 at
index 3, controls 0 and 1 and target 2, index 7 has both control bits set and its partner
`7 ^ (1 << 2) = 3` held amplitude 1, yet the call leaves amplitude 0 at index 7: the pair is
exchanged twice. -/
theorem apply_toffoli_three_qubits_unchanged :
    (apply_toffoli (QuantumState.mk 3 8 (write (fun _ => (0 : ℂ)) 3 1)) 0 1 2).amplitudes 7 = 0 ∧
    (write (fun _ => (0 : ℂ)) 3 1) (7 ^^^ 1 <<< 2) = 1 ∧
    Nat.testBit 7 0 = true ∧ Nat.testBit 7 1 = true := by
  refine ⟨?_, ?_, by decide, by decide⟩
  · simp +decide [apply_toffoli, forRange, List.range_succ, write]
  · simp [write]

/-- Claim C18 (`apply_controlled_phase`): for every control `c`, target `t`, angle `a` and
index `i` below the state size, the call leaves `(cos a + I sin a) * old[i]` at `i` when bits
`c` and `t` of `i` are both 1, and `old[i]` otherwise. -/
theorem apply_controlled_phase_spec (M : CMath ℝ ℂ) (hM : M.IsExact) (st : QuantumState ℂ)
    (c t : Nat) (a : ℝ) (i : Nat) (hi : i < st.state_size) :
    (apply_controlled_phase M st c t a).amplitudes i =
      if i.testBit c = true ∧ i.testBit t = true then
        ((Real.cos a : ℝ) + Complex.I * (Real.sin a : ℝ)) * st.amplitudes i
      else st.amplitudes i := by
  obtain ⟨-, hcos, hsin, -, -, hof, hI, -⟩ := hM
  rw [apply_controlled_phase_amplitudes, hcos, hsin, hof, hI]
  simp only [hi, true_and]
  split <;> ring

/-- Claim C18 on two qubits, control 0, target 1, angle 0, index 3. -/
theorem apply_controlled_phase_spec_witness :
    (apply_controlled_phase
        (CMath.mk Real.sqrt Real.cos Real.sin (fun x y => Real.rpow x y)
          (fun z => Complex.abs z) (fun x : ℝ => (x : ℂ)) Complex.I
          (fun x => if 0 ≤ x then Int.floor x else Int.ceil x))
        (QuantumState.mk 2 4 (write (fun _ => (0 : ℂ)) 3 1)) 0 1 0).amplitudes 3 =
      if Nat.testBit 3 0 = true ∧ Nat.testBit 3 1 = true then
        ((Real.cos 0 : ℝ) + Complex.I * (Real.sin 0 : ℝ)) * (write (fun _ => (0 : ℂ)) 3 1) 3
      else (write (fun _ => (0 : ℂ)) 3 1) 3 :=
  apply_controlled_phase_spec _ ⟨rfl, rfl, rfl, rfl, rfl, rfl, rfl, rfl⟩
    (QuantumState.mk 2 4 (write (fun _ => (0 : ℂ)) 3 1)) 0 1 0 3 (by decide)

/-- Claim C19 (Hadamard is an involution): in a state of `n` qubits with any amplitudes, for
a target `t < n`, two successive calls of `apply_hadamard(state, t)` leave the original
amplitude at every index below `2 ^ n`, the amplitudes being exact complex numbers. -/
theorem apply_hadamard_involution (M : CMath ℝ ℂ) (hM : M.IsExact) (st : QuantumState ℂ)
    (hwf : st.WF) (t : Nat) (ht : t < st.num_qubits) (k : Nat) (hk : k < 2 ^ st.num_qubits) :
    (apply_hadamard M (apply_hadamard M st t) t).amplitudes k = st.amplitudes k := by
  obtain ⟨hsqrt, -, -, -, -, hof, -, -⟩ := hM
  have hwf1 : (apply_hadamard M st t).WF := hwf
  have hf : k ^^^ 2 ^ t < 2 ^ st.num_qubits := flip_lt _ t k ht hk
  have hs : (M.ofReal (1 / M.sqrt 2)) * (M.ofReal (1 / M.sqrt 2)) = 1 / 2 := by
    rw [hsqrt, hof]
    have h2 : (Real.sqrt 2 : ℝ) * Real.sqrt 2 = 2 := Real.mul_self_sqrt (by norm_num)
    have h0 : (Real.sqrt 2 : ℝ) ≠ 0 := by positivity
    have : (1 / Real.sqrt 2) * (1 / Real.sqrt 2) = (1 / 2 : ℝ) := by
      field_simp
    have := congrArg (fun x : ℝ => (x : ℂ)) this
    simpa using this
  rw [apply_hadamard_spec M _ hwf1 t ht k hk, apply_hadamard_spec M st hwf t ht k hk,
    apply_hadamard_spec M st hwf t ht _ hf, flip_flip, testBit_flip]
  cases hb : k.testBit t
  · simp only [Bool.false_eq_true, if_false, Bool.not_false, if_true]
    linear_combination (2 * st.amplitudes k) * hs
  · simp only [if_true, Bool.not_true, Bool.false_eq_true, if_false]
    linear_combination (2 * st.amplitudes k) * hs

/-- Claim C19 at the one-qubit state `|0>`, target 0, index 0. -/
theorem apply_hadamard_involution_witness :
    (apply_hadamard
        (CMath.mk Real.sqrt Real.cos Real.sin (fun x y => Real.rpow x y)
          (fun z => Complex.abs z) (fun x : ℝ => (x : ℂ)) Complex.I
          (fun x => if 0 ≤ x then Int.floor x else Int.ceil x))
        (apply_hadamard
          (CMath.mk Real.sqrt Real.cos Real.sin (fun x y => Real.rpow x y)
            (fun z => Complex.abs z) (fun x : ℝ => (x : ℂ)) Complex.I
            (fun x => if 0 ≤ x then Int.floor x else Int.ceil x))
          (QuantumState.mk 1 2 (write (fun _ => (0 : ℂ)) 0 1)) 0) 0).amplitudes 0 =
      (write (fun _ => (0 : ℂ)) 0 1) 0 :=
  apply_hadamard_involution _ ⟨rfl, rfl, rfl, rfl, rfl, rfl, rfl, rfl⟩
    (QuantumState.mk 1 2 (write (fun _ => (0 : ℂ)) 0 1)) ⟨by decide, rfl⟩ 0 (by decide) 0
    (by decide)

/-- Claim C20 (PauliX is an involution): in a state of `n` qubits, for a target `t < n`, two
successive calls of `apply_pauli_x(state, t)` leave every amplitude equal to its original
value. -/
theorem apply_pauli_x_involution (st : QuantumState ℂ) (hwf : st.WF) (t : Nat)
    (ht : t < st.num_qubits) (k : Nat) :
    (apply_pauli_x (apply_pauli_x st t) t).amplitudes k = st.amplitudes k := by
  have hwf1 : (apply_pauli_x st t).WF := hwf
  rw [apply_pauli_x_spec _ hwf1 t ht k]
  have hq : (apply_pauli_x st t).num_qubits = st.num_qubits := rfl
  rw [hq]
  split
  · rename_i h
    rw [apply_pauli_x_spec st hwf t ht, flip_flip, if_pos ⟨h.1, (flip_lt_iff _ t k ht).mpr h.2⟩]
  · rename_i h
    rw [apply_pauli_x_spec st hwf t ht k, if_neg h]

/-- Claim C20 on two qubits with amplitude 1 at index 1, target 1, index 1. -/
theorem apply_pauli_x_involution_witness :
    (apply_pauli_x (apply_pauli_x (QuantumState.mk 2 4 (write (fun _ => (0 : ℂ)) 1 1)) 1) 1).amplitudes 1
      = (write (fun _ => (0 : ℂ)) 1 1) 1 :=
  apply_pauli_x_involution (QuantumState.mk 2 4 (write (fun _ => (0 : ℂ)) 1 1))
    ⟨by decide, rfl⟩ 1 (by decide) 1

/-- Claim C21 (CNOT is an involution): in a state of `n` qubits, for every control `c` and
target `t < n`, equal or not, two successive calls of `apply_cnot(state, c, t)` leave every
amplitude equal to its original value. -/
theorem apply_cnot_involution (st : QuantumState ℂ) (hwf : st.WF) (c t : Nat)
    (ht : t < st.num_qubits) (k : Nat) :
    (apply_cnot (apply_cnot st c t) c t).amplitudes k = st.amplitudes k := by
  by_cases hct : c = t
  · subst hct
    have hs1 : (apply_cnot st c c).state_size = 1 <<< st.num_qubits := hwf.2
    rw [apply_cnot_same _ st.num_qubits c k hs1 ht]
    split
    · rename_i hk
      rw [apply_cnot_same st st.num_qubits c _ hwf.2 ht, flip_flip,
        if_pos ((flip_lt_iff _ c k ht).mpr hk)]
    · rename_i hk
      rw [apply_cnot_same st st.num_qubits c _ hwf.2 ht, if_neg hk]
  · have hs1 : (apply_cnot st c t).state_size = 1 <<< st.num_qubits := hwf.2
    rw [apply_cnot_distinct _ st.num_qubits c t hs1 hct ht,
      apply_cnot_distinct st st.num_qubits c t hwf.2 hct ht]

/-- Claim C21 on two qubits with amplitude 1 at index 1, control and target 1, index 3. -/
theorem apply_cnot_involution_witness :
    (apply_cnot (apply_cnot (QuantumState.mk 2 4 (write (fun _ => (0 : ℂ)) 1 1)) 1 1) 1 1).amplitudes 3
      = (write (fun _ => (0 : ℂ)) 1 1) 3 :=
  apply_cnot_involution (QuantumState.mk 2 4 (write (fun _ => (0 : ℂ)) 1 1))
    ⟨by decide, rfl⟩ 1 1 (by decide) 3

/-- Claim C22 (Deutsch-Jozsa outcome): for `1 <= n <= 5`, `deutsch_jozsa` on
`create_quantum_state(n)` with `is_constant = true` ends with amplitude 1 at index 0 and 0 at
every other index below `2 ^ n`, and with `is_constant = false` ends with amplitude 0 at
index 0. -/
theorem deutsch_jozsa_outcome (M : CMath ℝ ℂ) (hM : M.IsExact) (n : Nat) (h1 : 1 ≤ n)
    (h5 : n ≤ 5) :
    (∀ i, i < 2 ^ n →
      (create_quantum_state n).map
          (fun st : QuantumState ℂ => (deutsch_jozsa M st true).amplitudes i) =
        some (if i = 0 then 1 else 0)) ∧
    (create_quantum_state n).map
        (fun st : QuantumState ℂ => (deutsch_jozsa M st false).amplitudes 0) = some 0 := by
  have hn16 : n ≤ 16 := by omega
  have hc : (create_quantum_state n : Option (QuantumState ℂ)) =
      some { num_qubits := n, state_size := 1 <<< n, amplitudes := write (fun _ => 0) 0 1 } := by
    rw [create_quantum_state, if_neg (by unfold MAX_QUBITS; omega)]
  have hs := exact_scale_sq M hM
  obtain ⟨a1, a2, a3⟩ := hadamard_all_agree M n hn16
    ({ num_qubits := n, state_size := 1 <<< n, amplitudes := write (fun _ => 0) 0 1 } :
      QuantumState ℂ) rfl rfl (fun i => if i = 0 then 1 else 0) (fun _ _ => rfl)
  constructor
  · intro i hi
    rw [hc, Option.map_some']
    congr 1
    unfold deutsch_jozsa
    simp only [Bool.not_true, Bool.false_eq_true, if_false]
    obtain ⟨-, -, b3⟩ := hadamard_all_agree M n hn16 _ a1 a2 _ a3
    rw [a1, b3 i hi, hadamardAllVec_invol _ hs]
  · rw [hc, Option.map_some']
    congr 1
    unfold deutsch_jozsa
    simp only [Bool.not_false, if_true]
    have h0 : OracleInv (M.ofReal (1 / M.sqrt 2) ^ n) n 0
        (forRange n (fun s i => apply_hadamard M s i)
          ({ num_qubits := n, state_size := 1 <<< n, amplitudes := write (fun _ => 0) 0 1 } :
            QuantumState ℂ)) := by
      refine ⟨a1, a2, ?_⟩
      intro k hk
      rw [a3 k hk, hadamardAllVec_basis, if_pos hk]
      simp
    obtain ⟨o1, o2, o3⟩ := oracleInv_loop _ n (1 <<< n / 2) _ h0
    rw [a2]
    obtain ⟨-, -, b3⟩ := hadamard_all_agree M n hn16 _ o1 o2 _ o3
    rw [o1, b3 0 (by positivity), hadamardAllVec_at_zero, ← Finset.mul_sum,
      sign_prod_sum_zero n (1 <<< n / 2) h1 ?_]
    · ring
    · rw [Nat.one_shiftLeft]
      have : 2 ^ 1 ≤ 2 ^ n := Nat.pow_le_pow_right (by decide) h1
      omega

/-- Claim C22 at `n = 3` with `is_constant = false`: the amplitude at index 0. -/
theorem deutsch_jozsa_outcome_witness :
    (create_quantum_state 3).map
        (fun st : QuantumState ℂ => (deutsch_jozsa
          (CMath.mk Real.sqrt Real.cos Real.sin (fun x y => Real.rpow x y)
            (fun z => Complex.abs z) (fun x : ℝ => (x : ℂ)) Complex.I
            (fun x => if 0 ≤ x then Int.floor x else Int.ceil x))
          st false).amplitudes 0) = some 0 :=
  (deutsch_jozsa_outcome _ ⟨rfl, rfl, rfl, rfl, rfl, rfl, rfl, rfl⟩ 3 (by decide)
    (by decide)).2

/-- Claim C23 (Hadamard preserves the norm and the shape): in a state of `n` qubits with any
amplitudes, for a target `t < n`, the squared magnitudes of the amplitudes sum to the same
value after `apply_hadamard` as before, and `num_qubits` and `state_size` are unchanged. -/
theorem apply_hadamard_norm (M : CMath ℝ ℂ) (hM : M.IsExact) (st : QuantumState ℂ)
    (hwf : st.WF) (t : Nat) (ht : t < st.num_qubits) :
    ∑ i in Finset.range (apply_hadamard M st t).state_size,
        Complex.abs ((apply_hadamard M st t).amplitudes i) ^ 2 =
      ∑ i in Finset.range st.state_size, Complex.abs (st.amplitudes i) ^ 2 ∧
    (apply_hadamard M st t).num_qubits = st.num_qubits ∧
    (apply_hadamard M st t).state_size = st.state_size := by
  refine ⟨?_, rfl, rfl⟩
  have hsz : (apply_hadamard M st t).state_size = st.state_size := rfl
  rw [hsz, WF.size_eq hwf]
  have hpair : ∀ k, k < 2 ^ st.num_qubits →
      Complex.abs ((apply_hadamard M st t).amplitudes k) ^ 2 +
        Complex.abs ((apply_hadamard M st t).amplitudes (k ^^^ 2 ^ t)) ^ 2 =
      Complex.abs (st.amplitudes k) ^ 2 + Complex.abs (st.amplitudes (k ^^^ 2 ^ t)) ^ 2 := by
    intro k hk
    have hf := flip_lt _ t k ht hk
    rw [apply_hadamard_spec M st hwf t ht k hk, apply_hadamard_spec M st hwf t ht _ hf,
      flip_flip, testBit_flip, exact_scale M hM]
    cases k.testBit t
    · simp only [Bool.false_eq_true, if_false, Bool.not_false, if_true]
      exact abs_sq_pair _ _
    · simp only [if_true, Bool.not_true, Bool.false_eq_true, if_false]
      rw [add_comm, abs_sq_pair, add_comm]
  have h1 := sum_range_flip st.num_qubits t ht
    (fun k => Complex.abs ((apply_hadamard M st t).amplitudes k) ^ 2)
  have h2 := sum_range_flip st.num_qubits t ht (fun k => Complex.abs (st.amplitudes k) ^ 2)
  have h3 : ∑ k in Finset.range (2 ^ st.num_qubits),
      (Complex.abs ((apply_hadamard M st t).amplitudes k) ^ 2 +
        Complex.abs ((apply_hadamard M st t).amplitudes (k ^^^ 2 ^ t)) ^ 2) =
      ∑ k in Finset.range (2 ^ st.num_qubits),
      (Complex.abs (st.amplitudes k) ^ 2 + Complex.abs (st.amplitudes (k ^^^ 2 ^ t)) ^ 2) :=
    Finset.sum_congr rfl (fun k hk => hpair k (Finset.mem_range.mp hk))
  rw [Finset.sum_add_distrib, Finset.sum_add_distrib] at h3
  simp only at h1 h2
  linarith

/-- Claim C23 at the one-qubit state `|0>`, target 0: the two sums. -/
theorem apply_hadamard_norm_witness :
    ∑ i in Finset.range (apply_hadamard
          (CMath.mk Real.sqrt Real.cos Real.sin (fun x y => Real.rpow x y)
            (fun z => Complex.abs z) (fun x : ℝ => (x : ℂ)) Complex.I
            (fun x => if 0 ≤ x then Int.floor x else Int.ceil x))
          (QuantumState.mk 1 2 (write (fun _ => (0 : ℂ)) 0 1)) 0).state_size,
        Complex.abs ((apply_hadamard
          (CMath.mk Real.sqrt Real.cos Real.sin (fun x y => Real.rpow x y)
            (fun z => Complex.abs z) (fun x : ℝ => (x : ℂ)) Complex.I
            (fun x => if 0 ≤ x then Int.floor x else Int.ceil x))
          (QuantumState.mk 1 2 (write (fun _ => (0 : ℂ)) 0 1)) 0).amplitudes i) ^ 2 =
      ∑ i in Finset.range 2, Complex.abs ((write (fun _ => (0 : ℂ)) 0 1) i) ^ 2 :=
  (apply_hadamard_norm _ ⟨rfl, rfl, rfl, rfl, rfl, rfl, rfl, rfl⟩
    (QuantumState.mk 1 2 (write (fun _ => (0 : ℂ)) 0 1)) ⟨by decide, rfl⟩ 0 (by decide)).1

/-- Claim C24 (`grover_diffusion` is the reflection through the mean up to sign): in a state
of `n` qubits with any amplitudes and `N = 2 ^ n`, after the call every index `i < N` holds
`old[i] - (2 / N) * (sum of old[j] over j < N)`. -/
theorem grover_diffusion_reflection (M : CMath ℝ ℂ) (hM : M.IsExact) (st : QuantumState ℂ)
    (hwf : st.WF) (i : Nat) (hi : i < 2 ^ st.num_qubits) :
    (grover_diffusion M st).amplitudes i =
      st.amplitudes i -
        (2 / (2 ^ st.num_qubits : ℂ)) * ∑ j in Finset.range (2 ^ st.num_qubits), st.amplitudes j := by
  have hs := exact_scale_sq M hM
  obtain ⟨-, -, h3⟩ := grover_diffusion_agree M st.num_qubits hwf.1 st rfl hwf.2 st.amplitudes
    (fun _ _ => rfl)
  rw [h3 i hi, diffusion_vec _ hs _ _ i hi]
  have h2 : M.ofReal (1 / M.sqrt 2) * M.ofReal (1 / M.sqrt 2) = 1 / 2 := by
    linear_combination (1 / 2 : ℂ) * hs
  rw [h2, div_pow, one_pow]
  ring

/-- Claim C24 on two qubits with amplitude 1 at index 1, index 3. -/
theorem grover_diffusion_reflection_witness :
    (grover_diffusion
        (CMath.mk Real.sqrt Real.cos Real.sin (fun x y => Real.rpow x y)
          (fun z => Complex.abs z) (fun x : ℝ => (x : ℂ)) Complex.I
          (fun x => if 0 ≤ x then Int.floor x else Int.ceil x))
        (QuantumState.mk 2 4 (write (fun _ => (0 : ℂ)) 1 1))).amplitudes 3 =
      (write (fun _ => (0 : ℂ)) 1 1) 3 -
        (2 / (2 ^ 2 : ℂ)) * ∑ j in Finset.range (2 ^ 2), (write (fun _ => (0 : ℂ)) 1 1) j :=
  grover_diffusion_reflection _ ⟨rfl, rfl, rfl, rfl, rfl, rfl, rfl, rfl⟩
    (QuantumState.mk 2 4 (write (fun _ => (0 : ℂ)) 1 1)) ⟨by decide, rfl⟩ 3 (by decide)

/-- Claim C25 (`apply_cnot` with distinct qubits changes nothing): in a state of `n` qubits,
for a control `c` and a target `t < n` with `c != t`, after `apply_cnot(state, c, t)` every
amplitude equals its value before the call. -/
theorem apply_cnot_distinct_noop (st : QuantumState ℂ) (hwf : st.WF) (c t : Nat)
    (ht : t < st.num_qubits) (hct : c ≠ t) (k : Nat) :
    (apply_cnot st c t).amplitudes k = st.amplitudes k := by
  rw [apply_cnot_distinct st st.num_qubits c t hwf.2 hct ht]

/-- Claim C25 on two qubits with amplitude 1 at index 1, control 0, target 1, index 3. -/
theorem apply_cnot_distinct_noop_witness :
    (apply_cnot (QuantumState.mk 2 4 (write (fun _ => (0 : ℂ)) 1 1)) 0 1).amplitudes 3 =
      (write (fun _ => (0 : ℂ)) 1 1) 3 :=
  apply_cnot_distinct_noop (QuantumState.mk 2 4 (write (fun _ => (0 : ℂ)) 1 1))
    ⟨by decide, rfl⟩ 0 1 (by decide) (by decide) 3

/-- Claim C26 (repeated measurement is stable): on a unit-norm state, with draws `u1` and
`u2` strictly between 0 and 1, a second call of `measure_qubit` on the same qubit returns the
bit of the first call and leaves every amplitude as the first call left it. -/
theorem measure_qubit_repeat (M : CMath ℝ ℂ) (hM : M.IsExact) (st : QuantumState ℂ) (q : Nat)
    (u1 u2 : ℝ) (h1 : 0 < u1 ∧ u1 < 1) (h2 : 0 < u2 ∧ u2 < 1)
    (hnorm : ∑ i in Finset.range st.state_size, Complex.abs (st.amplitudes i) ^ 2 = 1) :
    (measure_qubit M (measure_qubit M st q u1).2 q u2).1 = (measure_qubit M st q u1).1 ∧
    ∀ k, (measure_qubit M (measure_qubit M st q u1).2 q u2).2.amplitudes k =
      (measure_qubit M st q u1).2.amplitudes k := by
  have habs : M.cabs = fun z => Complex.abs z := hM.2.2.2.2.1
  have hsize : (measure_qubit M st q u1).2.state_size = st.state_size :=
    (measure_qubit_shape M st q u1).2
  have hsplit := sum_filter_bit_add st.state_size q (fun j => Complex.abs (st.amplitudes j) ^ 2)
  rw [hnorm] at hsplit
  have hr1 := measure_qubit_fst M st q u1
  simp only [habs, ← pow_two] at hr1
  have hnn0 : 0 ≤ ∑ j in (Finset.range st.state_size).filter (fun j => j.testBit q = false),
      Complex.abs (st.amplitudes j) ^ 2 := Finset.sum_nonneg (fun j _ => by positivity)
  have hnn1 : 0 ≤ ∑ j in (Finset.range st.state_size).filter (fun j => j.testBit q = true),
      Complex.abs (st.amplitudes j) ^ 2 := Finset.sum_nonneg (fun j _ => by positivity)
  -- the returned bit `b` and the positive norm `S` of its branch
  obtain ⟨b, hb, hS⟩ : ∃ b : Bool, decide ((measure_qubit M st q u1).1 = 1) = b ∧
      0 < ∑ j in (Finset.range st.state_size).filter (fun j => j.testBit q = b),
        Complex.abs (st.amplitudes j) ^ 2 := by
    by_cases hu : u1 > ∑ j in (Finset.range st.state_size).filter
        (fun j => j.testBit q = false), Complex.abs (st.amplitudes j) ^ 2
    · refine ⟨true, ?_, ?_⟩
      · rw [hr1, if_pos hu]; rfl
      · linarith [h1.2]
    · refine ⟨false, ?_, ?_⟩
      · rw [hr1, if_neg hu]; rfl
      · linarith [h1.1]
  have hbit : (measure_qubit M st q u1).1 = if b then 1 else 0 := by
    rcases measure_qubit_bit M st q u1 with h | h
    · rw [h] at hb ⊢
      have : b = false := by rw [← hb]; rfl
      rw [this]; rfl
    · rw [h] at hb ⊢
      have : b = true := by rw [← hb]; rfl
      rw [this]; rfl
  have hamp1 := measure_qubit_amplitudes M hM st q u1 b hb
  set S := ∑ j in (Finset.range st.state_size).filter (fun j => j.testBit q = b),
        Complex.abs (st.amplitudes j) ^ 2 with hSdef
  -- squared magnitudes after the first call
  have hsq : ∀ j, j < st.state_size →
      Complex.abs ((measure_qubit M st q u1).2.amplitudes j) ^ 2 =
        (if j.testBit q = b then Complex.abs (st.amplitudes j) ^ 2 else 0) / S := by
    intro j hj
    rw [hamp1, if_pos hj, map_div₀, Complex.abs_ofReal, abs_of_nonneg (Real.sqrt_nonneg _),
      div_pow, Real.sq_sqrt hS.le]
    by_cases hm : j.testBit q = b
    · simp [hm]
    · simp [hm]
  have hsum_same : ∑ j in (Finset.range st.state_size).filter (fun j => j.testBit q = b),
      Complex.abs ((measure_qubit M st q u1).2.amplitudes j) ^ 2 = 1 := by
    rw [Finset.sum_congr rfl (fun j hj =>
      hsq j (Finset.mem_range.mp (Finset.mem_filter.mp hj).1))]
    rw [← Finset.sum_div]
    have : ∑ j in (Finset.range st.state_size).filter (fun j => j.testBit q = b),
        (if j.testBit q = b then Complex.abs (st.amplitudes j) ^ 2 else 0) = S := by
      apply Finset.sum_congr rfl
      intro j hj
      rw [if_pos (Finset.mem_filter.mp hj).2]
    rw [this]
    exact div_self hS.ne'
  have hsum_other : ∑ j in (Finset.range st.state_size).filter (fun j => j.testBit q = !b),
      Complex.abs ((measure_qubit M st q u1).2.amplitudes j) ^ 2 = 0 := by
    apply Finset.sum_eq_zero
    intro j hj
    rw [Finset.mem_filter, Finset.mem_range] at hj
    rw [hsq j hj.1, if_neg (by rw [hj.2]; cases b <;> simp), zero_div]
  -- the second call
  have hr2 := measure_qubit_fst M (measure_qubit M st q u1).2 q u2
  simp only [habs, ← pow_two, hsize] at hr2
  have hb2 : decide ((measure_qubit M (measure_qubit M st q u1).2 q u2).1 = 1) = b := by
    cases b
    · rw [hr2, hsum_same, if_neg (by linarith [h2.2])]; rfl
    · simp only [Bool.not_true] at hsum_other
      rw [hr2, hsum_other, if_pos h2.1]; rfl
  have hres : (measure_qubit M (measure_qubit M st q u1).2 q u2).1 =
      (measure_qubit M st q u1).1 := by
    rw [hbit]
    rcases measure_qubit_bit M (measure_qubit M st q u1).2 q u2 with h | h
    · rw [h] at hb2 ⊢
      have : b = false := by rw [← hb2]; rfl
      rw [this]; rfl
    · rw [h] at hb2 ⊢
      have : b = true := by rw [← hb2]; rfl
      rw [this]; rfl
  refine ⟨hres, ?_⟩
  intro k
  rw [measure_qubit_amplitudes M hM _ q u2 b hb2 k, hsize, hsum_same]
  by_cases hk : k < st.state_size
  · rw [if_pos hk]
    by_cases hm : k.testBit q = b
    · simp [hm]
    · rw [if_pos hm, hamp1 k, if_pos hk, if_pos hm]
      simp
  · rw [if_neg hk]

/-- Claim C26 at the one-qubit state `|0>`, qubit 0, draws `1/2` and `1/3`: the two bits. -/
theorem measure_qubit_repeat_witness :
    (measure_qubit
        (CMath.mk Real.sqrt Real.cos Real.sin (fun x y => Real.rpow x y)
          (fun z => Complex.abs z) (fun x : ℝ => (x : ℂ)) Complex.I
          (fun x => if 0 ≤ x then Int.floor x else Int.ceil x))
        (measure_qubit
          (CMath.mk Real.sqrt Real.cos Real.sin (fun x y => Real.rpow x y)
            (fun z => Complex.abs z) (fun x : ℝ => (x : ℂ)) Complex.I
            (fun x => if 0 ≤ x then Int.floor x else Int.ceil x))
          (QuantumState.mk 1 2 (write (fun _ => (0 : ℂ)) 0 1)) 0 (1 / 2)).2 0 (1 / 3)).1 =
      (measure_qubit
          (CMath.mk Real.sqrt Real.cos Real.sin (fun x y => Real.rpow x y)
            (fun z => Complex.abs z) (fun x : ℝ => (x : ℂ)) Complex.I
            (fun x => if 0 ≤ x then Int.floor x else Int.ceil x))
          (QuantumState.mk 1 2 (write (fun _ => (0 : ℂ)) 0 1)) 0 (1 / 2)).1 :=
  (measure_qubit_repeat _ ⟨rfl, rfl, rfl, rfl, rfl, rfl, rfl, rfl⟩
    (QuantumState.mk 1 2 (write (fun _ => (0 : ℂ)) 0 1)) 0 (1 / 2) (1 / 3)
    (by norm_num) (by norm_num)
    (by simp [Finset.sum_range_succ, write])).1

end QSim
